import Mathlib

/-!
Verification of the Zalando deals scraper (src/scraper.js).

The repository file contains two variants of the same script concatenated;
the second, refined variant (roughly lines 360-823) is the one whose logic
the specification describes (unit-price filtering, MIN_SALE_PRICE and
MIN_DISCOUNT_PERCENT floors, the extended title strategy chain).  The
definitions below are a shallow embedding of that variant.  Text is
modelled as `List Char`; JS numbers arising from prices are modelled as
exact rationals (all reachable values are two-decimal currency amounts);
fallible operations return `Option`/`Except`.  Divergences of the earlier
variant are noted where a claim cites it.
-/

namespace Scraper

/-! ### Character classes (JS `\d`, `\s`, `\w` used by the scraper's regexes) -/

/-- JS `\d`: the ASCII digits `0`-`9`. -/
def isDigitCh (c : Char) : Bool := 48 ≤ c.toNat && c.toNat ≤ 57

/-- A thousands/decimal separator as used in the price regex class `[.,]`. -/
def isSepCh (c : Char) : Bool := c == '.' || c == ','

/-- JS `\s` restricted to the characters that can occur here (ASCII
whitespace plus NBSP; the full JS class also has exotic Unicode spaces
which never appear in the scraped text fragments under study). -/
def isJsWs (c : Char) : Bool :=
  c == ' ' || c == '\t' || c == '\n' || c == '\r' || c == '\x0b' || c == '\x0c' || c == ' '

/-- JS `\w`: `[A-Za-z0-9_]`. -/
def isWordCh (c : Char) : Bool :=
  isDigitCh c || (65 ≤ c.toNat && c.toNat ≤ 90) || (97 ≤ c.toNat && c.toNat ≤ 122) || c == '_'

/-- Numeric value of a digit character. -/
def digitVal (c : Char) : Nat := c.toNat - 48

/-- Digit character of a value below ten. -/
def digitChar (n : Nat) : Char := Char.ofNat (48 + n)

/-! ### Generic string helpers used by the scraper -/

/-- JS `String.prototype.trim` (both ends, `\s` as above). -/
def jsTrim (s : List Char) : List Char :=
  ((s.dropWhile isJsWs).reverse.dropWhile isJsWs).reverse

/-- JS `replace(/\s+/g, " ")`: every maximal whitespace run becomes a
single space (emitted at the run's last character). -/
def collapseWs : List Char → List Char
  | [] => []
  | [c] => if isJsWs c then [' '] else [c]
  | c1 :: c2 :: rest =>
    if isJsWs c1 && isJsWs c2 then collapseWs (c2 :: rest)
    else (if isJsWs c1 then ' ' else c1) :: collapseWs (c2 :: rest)

/-- `safeText` of scraper.js: `(s || "").replace(/\s+/g, " ").trim()`. -/
def safeText (s : List Char) : List Char := jsTrim (collapseWs s)

/-- JS `String.prototype.split("\n")`. -/
def splitLines : List Char → List (List Char)
  | [] => [[]]
  | c :: rest =>
    match splitLines rest with
    | [] => [[]]
    | l :: ls => if c = '\n' then [] :: l :: ls else (c :: l) :: ls

/-- JS `String.prototype.lastIndexOf` for a single character (`-1` when
absent). -/
def lastIndexOf (c : Char) : List Char → Int
  | [] => -1
  | x :: rest =>
    let r := lastIndexOf c rest
    if r ≥ 0 then r + 1 else if x = c then 0 else -1

/-- JS `replace(/<c>/g, "")`: delete every occurrence of one character. -/
def removeAllCh (c : Char) (s : List Char) : List Char := s.filter (fun x => x ≠ c)

/-- JS `replace(<a>, <b>)` on single characters: replace only the first
occurrence. -/
def replaceFirstCh (a b : Char) : List Char → List Char
  | [] => []
  | c :: rest => if c = a then b :: rest else c :: replaceFirstCh a b rest

/-- Substring test (JS `String.prototype.includes`). -/
def containsSub (needle : List Char) : List Char → Bool
  | [] => needle.isEmpty
  | c :: rest => needle.isPrefixOf (c :: rest) || containsSub needle rest

/-! ### The price regex `/(\d{1,3}(?:[.,]\d{3})*[.,]\d{2})/`

The JS engine scans start positions left to right; at a position it tries
the first group greedily (3, then 2, then 1 digits), then as many
`[.,]\d{3}` repetitions as possible (backtracking from the deepest one),
then `[.,]\d{2}`.  `starTail` matches `(?:[.,]\d{3})*[.,]\d{2}` with
exactly that preference and returns the consumed prefix. -/

def starTail : List Char → Option (List Char)
  | c1 :: c2 :: c3 :: c4 :: rest =>
    if isSepCh c1 && isDigitCh c2 && isDigitCh c3 then
      if isDigitCh c4 then
        match starTail rest with
        | some m => some (c1 :: c2 :: c3 :: c4 :: m)
        | none => some [c1, c2, c3]
      else some [c1, c2, c3]
    else none
  | [c1, c2, c3] =>
    if isSepCh c1 && isDigitCh c2 && isDigitCh c3 then some [c1, c2, c3] else none
  | _ => none

/-- Attempt the whole price pattern at the current position with a first
group of exactly `k` digits. -/
def tryGroup (s : List Char) (k : Nat) : Option (List Char) :=
  if (s.take k).length = k && (s.take k).all isDigitCh then
    match starTail (s.drop k) with
    | some m => some (s.take k ++ m)
    | none => none
  else none

/-- Match the price pattern anchored at the head of `s` (greedy first
group: 3 digits, then 2, then 1). -/
def matchHeadAt (s : List Char) : Option (List Char) :=
  match tryGroup s 3 with
  | some m => some m
  | none =>
    match tryGroup s 2 with
    | some m => some m
    | none => tryGroup s 1

/-- Leftmost match of the price pattern (JS `String.match` without `g`). -/
def findPrice : List Char → Option (List Char)
  | [] => none
  | c :: rest =>
    match matchHeadAt (c :: rest) with
    | some m => some m
    | none => findPrice rest

/-- All non-overlapping matches, leftmost first (JS `String.match` with
`g`).  The fuel equals the string length; every successful match consumes
at least one character, so the fuel never runs out on the reachable
inputs. -/
def findAllAux : Nat → List Char → List (List Char)
  | 0, _ => []
  | _, [] => []
  | fuel + 1, c :: rest =>
    match matchHeadAt (c :: rest) with
    | some m => m :: findAllAux fuel ((c :: rest).drop m.length)
    | none => findAllAux fuel rest

def findAllPrices (s : List Char) : List (List Char) := findAllAux s.length s

/-! ### JS `Number()` on the cleaned numeral strings

After `parseMoney` strips grouping separators, the string consists only
of digits, possibly a decimal dot, and (when the input was malformed)
leftover `,`/`.` characters; on that domain `Number` yields the decimal
value or NaN (modelled as `none`). -/

/-- Value of a digit string, most significant digit first. -/
def digitsValN (ds : List Char) : Nat := ds.foldl (fun a c => 10 * a + digitVal c) 0

/-- Split at the first `'.'`, if any. -/
def splitAtDot : List Char → Option (List Char × List Char)
  | [] => none
  | c :: rest =>
    if c = '.' then some ([], rest)
    else
      match splitAtDot rest with
      | none => none
      | some (a, b) => some (c :: a, b)

def jsNumber (s : List Char) : Option ℚ :=
  match splitAtDot s with
  | none => if !s.isEmpty && s.all isDigitCh then some (digitsValN s) else none
  | some (a, b) =>
    if (!a.isEmpty || !b.isEmpty) && a.all isDigitCh && b.all isDigitCh then
      some ((digitsValN a : ℚ) + (digitsValN b : ℚ) / (10 : ℚ) ^ b.length)
    else none

/-- `parseMoney` of scraper.js: first price-shaped substring; the later
of the last `,` and the last `.` is the decimal separator, the other is
grouping and is stripped; `Number` of the cleaned numeral, `null` on
NaN. -/
def parseMoney (text : List Char) : Option ℚ :=
  match findPrice text with
  | none => none
  | some t =>
    let lastComma := lastIndexOf ',' t
    let lastDot := lastIndexOf '.' t
    let cleaned :=
      if lastComma > lastDot then replaceFirstCh ',' '.' (removeAllCh '.' t)
      else removeAllCh ',' t
    jsNumber cleaned

/-! ### `computeDiscount` -/

/-- JS `Math.round`: round half toward positive infinity. -/
def jsRound (x : ℚ) : ℤ := ⌊x + 1 / 2⌋

/-- `computeDiscount` of scraper.js.  `!original`/`!sale` are the JS
falsiness tests (null or zero on the reachable values). -/
def computeDiscount (original sale : Option ℚ) : ℤ :=
  match original, sale with
  | some ov, some sv =>
    if ov = 0 ∨ sv = 0 ∨ ov ≤ 0 then 0 else jsRound ((ov - sv) / ov * 100)
  | _, _ => 0

/-! ### Unit-price line filtering (refined `extractPricesFromCard`)

The four regex tests applied to each lowercased `€`-line:
  1. `/(€\s*\/)|(\/\s*€)/`
  2. `/\/\s*\d+\s*(ml|g|kg|l)\b/`
  3. `/\bper\s*\d+\s*(ml|g|kg|l)\b/`
  4. `/\b(\d+)\s*(ml|g|kg|l)\b/` together with `includes("/")` -/

/-- After skipping `\s*`, is the next character `t`? -/
def afterWsIs (t : Char) : List Char → Bool
  | [] => false
  | c :: rest => if isJsWs c then afterWsIs t rest else c == t

/-- Test 1: a currency marker adjacent (up to whitespace) to a slash. -/
def euroSlash : List Char → Bool
  | [] => false
  | c :: rest =>
    (c == '€' && afterWsIs '/' rest) || (c == '/' && afterWsIs '€' rest) || euroSlash rest

/-- Word boundary after a match: end of string or a non-word character. -/
def boundaryAfter : List Char → Bool
  | [] => true
  | c :: _ => !isWordCh c

/-- `(ml|g|kg|l)\b` anchored at the head. -/
def unitHere : List Char → Bool
  | 'm' :: 'l' :: rest => boundaryAfter rest
  | 'k' :: 'g' :: rest => boundaryAfter rest
  | 'g' :: rest => boundaryAfter rest
  | 'l' :: rest => boundaryAfter rest
  | _ => false

/-- `\s*\d+\s*(ml|g|kg|l)\b` anchored at the head (the greedy `\d+` is
equivalent to consuming the whole digit run, since no unit starts with a
digit). -/
def qtyUnitHere (s : List Char) : Bool :=
  match s.dropWhile isJsWs with
  | c :: rest =>
    if isDigitCh c then unitHere ((rest.dropWhile isDigitCh).dropWhile isJsWs) else false
  | [] => false

/-- Test 2: `/\/\s*\d+\s*(ml|g|kg|l)\b/`. -/
def slashQtyUnit : List Char → Bool
  | [] => false
  | c :: rest => (c == '/' && qtyUnitHere rest) || slashQtyUnit rest

/-- Is the previous character (none at the start) outside `\w`? -/
def prevNonWord : Option Char → Bool
  | none => true
  | some c => !isWordCh c

/-- Test 3 scanner: `\bper\s*\d+\s*(ml|g|kg|l)\b`. -/
def perQtyUnitFrom : Option Char → List Char → Bool
  | _, [] => false
  | prev, c :: rest =>
    (prevNonWord prev &&
      (match c :: rest with
       | 'p' :: 'e' :: 'r' :: after => qtyUnitHere after
       | _ => false)) ||
    perQtyUnitFrom (some c) rest

def perQtyUnit (s : List Char) : Bool := perQtyUnitFrom none s

/-- Test 4 scanner: `\b(\d+)\s*(ml|g|kg|l)\b`. -/
def bareQtyUnitFrom : Option Char → List Char → Bool
  | _, [] => false
  | prev, c :: rest =>
    (prevNonWord prev && isDigitCh c && unitHere ((rest.dropWhile isDigitCh).dropWhile isJsWs)) ||
    bareQtyUnitFrom (some c) rest

def bareQtyUnit (s : List Char) : Bool := bareQtyUnitFrom none s

/-- ASCII lowering, the part of JS `toLowerCase` exercised here. -/
def toLowerCh (c : Char) : Char :=
  if 65 ≤ c.toNat && c.toNat ≤ 90 then Char.ofNat (c.toNat + 32) else c

/-- A `€`-line survives the refined variant's unit-price filter iff all
four tests on its lowercased text fail. -/
def keepLine (line : List Char) : Bool :=
  let lower := line.map toLowerCh
  !(euroSlash lower || slashQtyUnit lower || perQtyUnit lower ||
    (bareQtyUnit lower && lower.contains '/'))

/-! ### Candidate prices and the price pair -/

/-- The trimmed lines of the card text that contain a currency marker. -/
def euroLines (text : List Char) : List (List Char) :=
  ((splitLines text).map jsTrim).filter (fun s => s.contains '€')

/-- Every money value parsed from one line (global price-pattern matches,
each fed to `parseMoney`). -/
def linePrices (line : List Char) : List ℚ :=
  (findAllPrices line).filterMap parseMoney

/-- The candidate price list of a card text: values of all surviving
lines, in order. -/
def candidatePrices (text : List Char) : List ℚ :=
  ((euroLines text).filter keepLine).flatMap linePrices

/-- Accumulator pass for `jsSetDedup`. -/
def jsSetDedupGo : List ℚ → List ℚ → List ℚ
  | _, [] => []
  | seen, x :: xs => if x ∈ seen then jsSetDedupGo seen xs else x :: jsSetDedupGo (x :: seen) xs

/-- JS `Array.from(new Set(...))`: deduplicate keeping first occurrences. -/
def jsSetDedup (l : List ℚ) : List ℚ := jsSetDedupGo [] l

/-- The final selection step of `extractPricesFromCard`: deduplicate,
sort ascending, and read off `{price_original, price_sale}`. -/
def disambiguate (prices : List ℚ) : Option ℚ × Option ℚ :=
  let uniq := List.insertionSort (· ≤ ·) (jsSetDedup prices)
  match uniq with
  | [] => (none, none)
  | [x] => (none, some x)
  | x :: y :: ys => (some (List.getLastD (y :: ys) y), some x)

/-- Refined `extractPricesFromCard` (scraper.js lines 623-659), as a
function of the card's text content.  Returns
`(price_original, price_sale)`. -/
def extractPricesFromCard (text : List Char) : Option ℚ × Option ℚ :=
  if text.isEmpty then (none, none)
  else disambiguate (candidatePrices text)

/-! ### Fragments, records, and the record extractor

A listing fragment is modelled by the results of the DOM queries
`extractCardData` performs on it: each `$eval(sel, f).catch(() => X)`
becomes an `Option (List Char)` field (`none` = selector miss or
extraction error), and the full `textContent` becomes `text`.  The
`ENRICH_SIZES` flag is the configured `false`, so the enrichment branch
(`fetchBrandAndSizes`) is dead code and is not modelled. -/

structure Card where
  href : Option (List Char)
  image_url : Option (List Char)
  title_testid : Option (List Char)
  title_header_span : Option (List Char)
  title_h3_span : Option (List Char)
  img_alt : Option (List Char)
  h3_text : Option (List Char)
  brand_header_span : Option (List Char)
  brand_h3_span : Option (List Char)
  brand_anchor : Option (List Char)
  text : List Char
deriving DecidableEq

/-- The product record built by `extractCardData`.  `scraped_at` (a wall
clock read) is outside the model; no claim mentions it. -/
structure Record where
  id : List Char
  title : List Char
  brand : List Char
  price_sale : ℚ
  price_original : Option ℚ
  discount_percent : ℤ
  image_url : Option (List Char)
  product_url : List Char
  source_category : List Char
deriving DecidableEq

def MIN_DISCOUNT_PERCENT : ℤ := 35

def MIN_SALE_PRICE : ℚ := 10

def SCROLL_STEPS : Nat := 10

/-- Does the string start with `http://` or `https://`? -/
def isAbsoluteHttp (s : List Char) : Bool :=
  List.isPrefixOf ("http://".data) s || List.isPrefixOf ("https://".data) s

/-- The `scheme://host` part of an absolute http(s) URL (identity on
anything else, which never occurs on the configured category URLs). -/
def urlOrigin (base : List Char) : List Char :=
  if List.isPrefixOf ("https://".data) base then
    "https://".data ++ (base.drop 8).takeWhile (fun c => c ≠ '/')
  else if List.isPrefixOf ("http://".data) base then
    "http://".data ++ (base.drop 7).takeWhile (fun c => c ≠ '/')
  else base

/-- The base URL up to and including its last `/` (empty when there is no
slash). -/
def upToLastSlash (s : List Char) : List Char :=
  (s.reverse.dropWhile (fun c => c ≠ '/')).reverse

/-- Model of the WHATWG `new URL(href, base).toString()` used by
`extractCardData`, covering the href shapes a listing page produces:
an absolute http(s) URL is kept, a root-relative path is resolved
against the base's origin, and any other href against the base's
directory.  Fragment/query normalisation and exotic schemes are not
modelled. -/
def resolveURL (href base : List Char) : List Char :=
  if isAbsoluteHttp href then href
  else if List.isPrefixOf ['/'] href then urlOrigin base ++ href
  else upToLastSlash base ++ href

/-- First non-empty entry of a list of strings (JS `a || b || ...`). -/
def firstNonempty : List (List Char) → List Char
  | [] => []
  | s :: rest => if s.isEmpty then firstNonempty rest else s

/-- The refined variant's ordered title strategies (lines 669-674):
dedicated test-id markup, second span of a header/h3, image alt text,
then raw h3 text, each normalised by `safeText`. -/
def titleStrategies (c : Card) : List (List Char) :=
  [safeText (c.title_testid.getD []),
   safeText (c.title_header_span.getD []),
   safeText (c.title_h3_span.getD []),
   safeText (c.img_alt.getD []),
   safeText (c.h3_text.getD [])]

def resolveTitle (c : Card) : List Char := firstNonempty (titleStrategies c)

/-- The brand strategies (lines 678-682). -/
def resolveBrand (c : Card) : List Char :=
  firstNonempty
    [safeText (c.brand_header_span.getD []),
     safeText (c.brand_h3_span.getD []),
     safeText (c.brand_anchor.getD [])]

/-- Refined `extractCardData` (scraper.js lines 661-722).  `null` is
`none`; the JS falsiness checks on strings and numbers are made
explicit. -/
def extractCardData (c : Card) (baseUrl : List Char) : Option Record :=
  match c.href, extractPricesFromCard c.text with
  | none, _ => none
  | some h, (price_original, price_sale) =>
    let title := resolveTitle c
    let product_url := resolveURL h baseUrl
    if title.isEmpty then none
    else if product_url.isEmpty then none
    else
      match price_sale with
      | none => none
      | some ps =>
        if ps = 0 then none
        else if ps < MIN_SALE_PRICE then none
        else
          let discount : ℤ :=
            match price_original with
            | some po =>
              if po ≠ 0 ∧ ps ≠ 0 ∧ ps < po then computeDiscount (some po) (some ps) else 0
            | none => 0
          if discount < MIN_DISCOUNT_PERCENT then none
          else
            some
              { id := product_url.takeWhile (fun x => x ≠ '?')
                title := title
                brand := resolveBrand c
                price_sale := ps
                price_original := price_original
                discount_percent := discount
                image_url := c.image_url
                product_url := product_url
                source_category := baseUrl }

/-! ### Content loading (`scrollToLoad`)

The page is abstracted as the sequence `counts i` of materialised card
counts observed at iteration `i`; the scroll action and settle delay have
no observable effect beyond advancing to the next measurement.  The
function returns the loop index at exit and why the loop stopped. -/

inductive ScrollStop where
  | target
  | stalled
  | budget
deriving DecidableEq

/-- The loop body of `scrollToLoad`: `fuel = maxSteps - i` counts the
remaining iterations, `i` the current index, `last` the `lastCount`
variable. -/
def scrollGo (counts : Nat → Nat) (target : Nat) : Nat → Nat → Nat → Nat × ScrollStop
  | 0, i, _ => (i, ScrollStop.budget)
  | fuel + 1, i, last =>
    if counts i ≥ target then (i, ScrollStop.target)
    else if i > 2 ∧ counts i = last then (i, ScrollStop.stalled)
    else scrollGo counts target fuel (i + 1) (counts i)

/-- `scrollToLoad` with an explicit step budget. -/
def scrollRun (counts : Nat → Nat) (target maxSteps : Nat) : Nat × ScrollStop :=
  scrollGo counts target maxSteps 0 0

/-- `scrollToLoad` of scraper.js (lines 601-616), with the configured
`SCROLL_STEPS` budget. -/
def scrollToLoad (counts : Nat → Nat) (targetCount : Nat) : Nat × ScrollStop :=
  scrollRun counts targetCount SCROLL_STEPS

/-! ### Navigation with retry and the category pipeline -/

/-- One navigation attempt either succeeds or raises an error of type
`E`; the page's behaviour across attempts is the sequence `nav`. -/
def gotoAux {E : Type} (nav : Nat → Except E Unit) (tries : Nat) :
    Nat → Option E → Except (Option E) Unit
  | i, last =>
    if _h : i ≤ tries then
      match nav i with
      | Except.ok _ => Except.ok ()
      | Except.error e => gotoAux nav tries (i + 1) (some e)
    else Except.error last
termination_by i => tries + 1 - i
decreasing_by omega

/-- `gotoWithRetry` of scraper.js (lines 562-580): attempts `1..tries`;
the first success wins, otherwise the last error is rethrown. -/
def gotoWithRetry {E : Type} (nav : Nat → Except E Unit) (tries : Nat) :
    Except (Option E) Unit :=
  gotoAux nav tries 1 none

/-- The country/availability gate test
`/countries|country|available|choose/i` on the landed URL. -/
def gateRedirect (url : List Char) : Bool :=
  let lower := url.map toLowerCh
  containsSub ("countries".data) lower || containsSub ("country".data) lower ||
    containsSub ("available".data) lower || containsSub ("choose".data) lower

/-- What `scrapeCategory` observes of the browser for one category:
the navigation attempt outcomes, the landed URL after cookie handling,
whether `waitForProducts` found a selector, and the card fragments the
page exposes. -/
structure CategoryEnv (E : Type) where
  nav : Nat → Except E Unit
  landedUrl : List Char
  productsFound : Bool
  cards : List Card

/-- `scrapeCategory` of scraper.js (lines 724-777): navigation failure,
a gate redirect, or a missing product selector yield the empty list;
otherwise up to `maxCards` fragments are extracted and the valid records
collected.  (The enrichment counter only feeds the disabled
`ENRICH_SIZES` path.) -/
def scrapeCategory {E : Type} (env : CategoryEnv E) (url : List Char) (maxCards : Nat) :
    List Record :=
  match gotoWithRetry env.nav 3 with
  | Except.error _ => []
  | Except.ok _ =>
    if gateRedirect env.landedUrl then []
    else if !env.productsFound then []
    else (env.cards.take maxCards).filterMap (fun c => extractCardData c url)

/-- The per-category outputs of `main`'s loop, in configured order. -/
def categoryOutputs {E : Type} (cats : List (CategoryEnv E × List Char)) (maxCards : Nat) :
    List (List Record) :=
  cats.map (fun p => scrapeCategory p.1 p.2 maxCards)

/-! ### Aggregation (`main`, lines 809-812) -/

/-- The dedup loop: `if (!map.has(p.id)) map.set(p.id, p)` over a JS
`Map`, whose values iterate in insertion order. -/
def dedupById : List (List Char) → List Record → List Record
  | _, [] => []
  | seen, p :: ps =>
    if p.id ∈ seen then dedupById seen ps else p :: dedupById (p.id :: seen) ps

/-- Merging the per-category lists: concatenate then deduplicate by `id`,
first seen wins. -/
def merge (lists : List (List Record)) : List Record :=
  dedupById [] lists.flatten

/-! ### Spec-side definitions

These definitions follow the specification's words, not the code; they
exist to be compared against the embedded code. -/

/-- Decimal digits of `n`, least significant first. -/
def natDigitsRev (n : Nat) : List Char :=
  if n < 10 then [digitChar n] else digitChar (n % 10) :: natDigitsRev (n / 10)
decreasing_by exact Nat.div_lt_self (by omega) (by omega)

/-- Insert `sep` after every third digit of a least-significant-first
digit list (the reversal of grouping in threes from the right). -/
def groupRev (sep : Char) : List Char → List Char
  | d1 :: d2 :: d3 :: d4 :: rest => d1 :: d2 :: d3 :: sep :: groupRev sep (d4 :: rest)
  | ds => ds

/-- Two-digit rendering of a value below one hundred. -/
def twoDigits (f : Nat) : List Char := [digitChar (f / 10), digitChar (f % 10)]

/-- The spec's EU-style rendering of `cents / 100`: dot grouping in
threes, comma decimal separator, two fraction digits (`1.234,56`). -/
def formatEU (cents : Nat) : List Char :=
  (groupRev '.' (natDigitsRev (cents / 100))).reverse ++ ',' :: twoDigits (cents % 100)

/-- The spec's US-style rendering of `cents / 100`: comma grouping, dot
decimal separator (`1,234.56`). -/
def formatUS (cents : Nat) : List Char :=
  (groupRev ',' (natDigitsRev (cents / 100))).reverse ++ '.' :: twoDigits (cents % 100)

/-- The grouped part of a rendering after its first digit group: one
`sep`-prefixed three-digit chunk per group. -/
def chunksFlat (sep : Char) (gs : List (List Char)) : List Char :=
  (gs.map (fun g => sep :: g)).flatten

/-- Scanner for a standalone weight/volume unit token (`ml`, `g`, `kg`,
`l` delimited by word boundaries). -/
def hasUnitTokenFrom : Option Char → List Char → Bool
  | _, [] => false
  | prev, c :: rest => (prevNonWord prev && unitHere (c :: rest)) || hasUnitTokenFrom (some c) rest

/-- The claim's "per-unit price shape", following the spec's words: a
currency marker adjacent to a `/` divider, or a currency marker
co-occurring with a weight/volume unit token such as `ml`, `g`, `kg`,
`l`. -/
def specUnitLine (line : List Char) : Bool :=
  line.contains '€' && (euroSlash line || hasUnitTokenFrom none line)

/-- The claim's title resolution order, following the spec's words:
dedicated title markup, then structured heading text, then image alt
text, first non-empty normalised result. -/
def specTitle (c : Card) : List Char :=
  firstNonempty
    [safeText (c.title_testid.getD []),
     safeText (c.h3_text.getD []),
     safeText (c.img_alt.getD [])]

/-! ### Concrete sample inputs used by the witnesses and counterexamples -/

/-- A well-formed discounted listing fragment. -/
def sampleCard : Card :=
  { href := some ("/p/abc123?q=1".data)
    image_url := some ("https://img.example/x.jpg".data)
    title_testid := some ("Sneaker Model".data)
    title_header_span := none
    title_h3_span := none
    img_alt := some ("Sneaker Model".data)
    h3_text := none
    brand_header_span := some ("Brand X".data)
    brand_h3_span := none
    brand_anchor := none
    text := ("Brand X\nSneaker Model\n€39,99\n€79,99\n€0,40 / 100 g".data) }

def sampleBase : List Char := "https://www.zalando.it/promo-scarpe-uomo/".data

/-- The record `extractCardData` produces from `sampleCard`. -/
def sampleRecord : Record :=
  { id := "https://www.zalando.it/p/abc123".data
    title := "Sneaker Model".data
    brand := "Brand X".data
    price_sale := 3999 / 100
    price_original := some (7999 / 100)
    discount_percent := 50
    image_url := some ("https://img.example/x.jpg".data)
    product_url := "https://www.zalando.it/p/abc123?q=1".data
    source_category := sampleBase }

/-- A fragment whose text exposes a single distinct price value. -/
def singlePriceCard : Card :=
  { sampleCard with text := "Sneaker Model\n€39,99".data }

/-- A fragment with no dedicated title markup and no heading spans, but
with both an image alt text and raw h3 text. -/
def altVsHeadingCard : Card :=
  { href := some ("/p/x".data)
    image_url := none
    title_testid := none
    title_header_span := none
    title_h3_span := none
    img_alt := some ("Bar".data)
    h3_text := some ("Foo".data)
    brand_header_span := none
    brand_h3_span := none
    brand_anchor := none
    text := [] }

/-! ## Helper lemmas -/

theorem jsSetDedupGo_eq_self (l : List ℚ) :
    ∀ seen, l.Nodup → (∀ x ∈ l, x ∉ seen) → jsSetDedupGo seen l = l := by
  induction l with
  | nil => intro seen _ _; rfl
  | cons x xs ih =>
    intro seen hnd hdisj
    have hx : x ∉ seen := hdisj x (List.mem_cons_self x xs)
    have hnd' : xs.Nodup := (List.nodup_cons.mp hnd).2
    have hxs : x ∉ xs := (List.nodup_cons.mp hnd).1
    simp only [jsSetDedupGo, if_neg hx]
    congr 1
    exact ih (x :: seen) hnd' (by
      intro z hz
      simp only [List.mem_cons]
      rintro (rfl | hzs)
      · exact hxs hz
      · exact hdisj z (List.mem_cons_of_mem x hz) hzs)

theorem jsSetDedup_of_nodup (l : List ℚ) (h : l.Nodup) : jsSetDedup l = l :=
  jsSetDedupGo_eq_self l [] h (by intro x _ hx; simp at hx)

theorem getLastD_mem (l : List ℚ) : ∀ d : ℚ, List.getLastD l d ∈ d :: l := by
  induction l with
  | nil => intro d; simp [List.getLastD]
  | cons a as ih =>
    intro d
    have := ih a
    simp only [List.getLastD_cons, List.mem_cons] at this ⊢
    tauto

theorem sorted_le_getLastD (l : List ℚ) :
    ∀ a : ℚ, List.Sorted (· ≤ ·) (a :: l) → ∀ x ∈ a :: l, x ≤ List.getLastD l a := by
  induction l with
  | nil =>
    intro a _ x hx
    simp only [List.mem_singleton] at hx
    simp [hx, List.getLastD]
  | cons b bs ih =>
    intro a hs x hx
    have hab : a ≤ b := (List.sorted_cons.mp hs).1 b (List.mem_cons_self b bs)
    have hs' : List.Sorted (· ≤ ·) (b :: bs) := (List.sorted_cons.mp hs).2
    rw [List.getLastD_cons a b bs]
    rcases List.mem_cons.mp hx with rfl | hx'
    · exact le_trans hab (ih b hs' b (List.mem_cons_self b bs))
    · exact ih b hs' x hx'

/-! ## Claim C2 -/

/-- C2: price disambiguation over a finite candidate list: no candidates
give `(null, null)`; a single candidate `v` gives `(null, v)`; two or
more candidates give the maximum as `price_original` and the minimum as
`price_sale`, every other value being discarded from the pair. -/
theorem claim_C2_theorem : ∀ l : List ℚ, l.Nodup →
    (l = [] → disambiguate l = (none, none)) ∧
    (∀ v, l = [v] → disambiguate l = (none, some v)) ∧
    (2 ≤ l.length → ∃ a b, disambiguate l = (some a, some b) ∧ a ∈ l ∧ b ∈ l ∧
      (∀ x ∈ l, x ≤ a) ∧ (∀ x ∈ l, b ≤ x)) := by
  intro l hnd
  refine ⟨?_, ?_, ?_⟩
  · rintro rfl; rfl
  · rintro v rfl; rfl
  · intro hlen
    have hd : jsSetDedup l = l := jsSetDedup_of_nodup l hnd
    have hs : List.Sorted (· ≤ ·) (List.insertionSort (· ≤ ·) l) :=
      List.sorted_insertionSort _ l
    have hp : List.Perm (List.insertionSort (· ≤ ·) l) l := List.perm_insertionSort _ l
    have hl2 : 2 ≤ (List.insertionSort (· ≤ ·) l).length := by
      rw [List.length_insertionSort]; exact hlen
    rcases hse : List.insertionSort (· ≤ ·) l with _ | ⟨x, _ | ⟨y, ys⟩⟩
    · rw [hse] at hl2; simp at hl2
    · rw [hse] at hl2; simp at hl2
    · rw [hse] at hs hp
      have hout : disambiguate l = (some (List.getLastD (y :: ys) y), some x) := by
        unfold disambiguate
        rw [hd, hse]

      have hgl : List.getLastD (y :: ys) y = List.getLastD (y :: ys) x := by
        rw [List.getLastD_cons, List.getLastD_cons]
      refine ⟨List.getLastD (y :: ys) y, x, hout, ?_, ?_, ?_, ?_⟩
      · have hm := getLastD_mem (y :: ys) y
        have : List.getLastD (y :: ys) y ∈ x :: y :: ys := by
          rcases List.mem_cons.mp hm with h | h
          · rw [h]; exact List.mem_cons_of_mem x (List.mem_cons_self y ys)
          · exact List.mem_cons_of_mem x h
        exact hp.mem_iff.mp this
      · exact hp.mem_iff.mp (List.mem_cons_self x (y :: ys))
      · intro z hz
        rw [hgl]
        exact sorted_le_getLastD (y :: ys) x hs z (hp.mem_iff.mpr hz)
      · intro z hz
        have := (List.sorted_cons.mp hs).1
        rcases List.mem_cons.mp (hp.mem_iff.mpr hz) with rfl | h
        · exact le_refl z
        · exact this z h

unseal Rat.add Rat.mul Rat.sub Rat.inv Rat.ofScientific in
/-- C2 witness: the two-candidate case at `[29.99, 59.99]`. -/
theorem claim_C2_witness :
    ∃ a b, disambiguate [(2999 : ℚ)/100, (5999 : ℚ)/100] = (some a, some b) ∧
      a ∈ [(2999 : ℚ)/100, (5999 : ℚ)/100] ∧ b ∈ [(2999 : ℚ)/100, (5999 : ℚ)/100] ∧
      (∀ x ∈ [(2999 : ℚ)/100, (5999 : ℚ)/100], x ≤ a) ∧
      (∀ x ∈ [(2999 : ℚ)/100, (5999 : ℚ)/100], b ≤ x) :=
  (claim_C2_theorem [(2999 : ℚ)/100, (5999 : ℚ)/100] (by decide)).2.2 (by decide)

/-! ## Claim C5 -/

unseal Rat.add Rat.mul Rat.sub Rat.inv Rat.ofScientific in
/-- C5 counterexample: `computeDiscount` does not clamp — with
`original = 10`, `sale = 20` it returns `-100`, a negative value, and
with the non-positive sale `-5` it returns `150` instead of `0`. -/
theorem claim_C5_counterexample :
    computeDiscount (some 10) (some 20) = -100 ∧ (-100 : ℤ) < 0 ∧
    computeDiscount (some 10) (some (-5)) = 150 := by
  refine ⟨by decide, by decide, by decide⟩

unseal Rat.add Rat.mul Rat.sub Rat.inv Rat.ofScientific in
/-- C5 amended: `computeDiscount` returns `0` when either argument is
null or zero or when `original ≤ 0`; otherwise — including for a
negative sale — it returns `round(100·(original−sale)/original)`, so
`computeDiscount (59.99, 29.99) = 50`; the result is non-negative
whenever `sale ≤ original`, but the implementation does not clamp, so
`sale > original` yields a negative percentage. -/
theorem claim_C5_theorem :
    (∀ o s : Option ℚ,
      (o = none ∨ o = some 0 ∨ s = none ∨ s = some 0 ∨ (∃ ov, o = some ov ∧ ov ≤ 0)) →
      computeDiscount o s = 0) ∧
    (∀ ov sv : ℚ, 0 < ov → sv ≠ 0 →
      computeDiscount (some ov) (some sv) = jsRound ((ov - sv) / ov * 100)) ∧
    (∀ ov sv : ℚ, sv ≤ ov → 0 ≤ computeDiscount (some ov) (some sv)) ∧
    computeDiscount (some (5999/100)) (some (2999/100)) = 50 := by
  refine ⟨?_, ?_, ?_, by decide⟩
  · intro o s h
    rcases h with rfl | rfl | rfl | rfl | ⟨ov, rfl, hov⟩
    · rfl
    · cases s with
      | none => rfl
      | some sv => simp [computeDiscount]
    · cases o with
      | none => rfl
      | some ov => rfl
    · cases o with
      | none => rfl
      | some ov => simp [computeDiscount]
    · cases s with
      | none => rfl
      | some sv => simp [computeDiscount, hov]
  · intro ov sv hov hsv
    have hcond : ¬(ov = 0 ∨ sv = 0 ∨ ov ≤ 0) := by
      push_neg
      exact ⟨ne_of_gt hov, hsv, hov⟩
    simp only [computeDiscount, if_neg hcond]
  · intro ov sv hle
    by_cases hcond : ov = 0 ∨ sv = 0 ∨ ov ≤ 0
    · simp [computeDiscount, hcond]
    · push_neg at hcond
      obtain ⟨hov0, hsv0, hovpos⟩ := hcond
      have hcond' : ¬(ov = 0 ∨ sv = 0 ∨ ov ≤ 0) := by
        push_neg; exact ⟨hov0, hsv0, hovpos⟩
      simp only [computeDiscount, if_neg hcond']
      have hx : (0 : ℚ) ≤ (ov - sv) / ov * 100 := by
        apply mul_nonneg
        · exact div_nonneg (by linarith) (le_of_lt hovpos)
        · norm_num
      unfold jsRound
      rw [Int.le_floor]
      push_cast
      linarith

/-- C5 witness: the zero branch at `(0, 5)` and non-negativity at
`(10, 5)`. -/
theorem claim_C5_witness :
    computeDiscount (some 0) (some 5) = 0 ∧ 0 ≤ computeDiscount (some 10) (some 5) :=
  ⟨claim_C5_theorem.1 (some 0) (some 5) (Or.inr (Or.inl rfl)),
   claim_C5_theorem.2.2.1 10 5 (by norm_num)⟩

/-! ## Claim C6 -/

theorem dedupById_sub (ps : List Record) :
    ∀ seen r, r ∈ dedupById seen ps → r ∈ ps ∧ r.id ∉ seen := by
  induction ps with
  | nil =>
    intro seen r h
    rw [show dedupById seen [] = [] from rfl] at h
    simp at h
  | cons p ps ih =>
    intro seen r h
    simp only [dedupById] at h
    by_cases hmem : p.id ∈ seen
    · rw [if_pos hmem] at h
      obtain ⟨h1, h2⟩ := ih seen r h
      exact ⟨List.mem_cons_of_mem p h1, h2⟩
    · rw [if_neg hmem] at h
      rcases List.mem_cons.mp h with rfl | h'
      · exact ⟨List.mem_cons_self r ps, hmem⟩
      · obtain ⟨h1, h2⟩ := ih (p.id :: seen) r h'
        refine ⟨List.mem_cons_of_mem p h1, ?_⟩
        intro hc
        exact h2 (List.mem_cons_of_mem p.id hc)

theorem dedupById_nodup (ps : List Record) :
    ∀ seen, ((dedupById seen ps).map Record.id).Nodup := by
  induction ps with
  | nil =>
    intro seen
    rw [show dedupById seen [] = [] from rfl]
    simp
  | cons p ps ih =>
    intro seen
    simp only [dedupById]
    by_cases hmem : p.id ∈ seen
    · rw [if_pos hmem]; exact ih seen
    · rw [if_neg hmem]
      simp only [List.map_cons, List.nodup_cons]
      refine ⟨?_, ih (p.id :: seen)⟩
      intro hc
      obtain ⟨r, hr, hrid⟩ := List.mem_map.mp hc
      have := (dedupById_sub ps (p.id :: seen) r hr).2
      rw [hrid] at this
      exact this (List.mem_cons_self p.id seen)

theorem dedupById_find (ps : List Record) :
    ∀ seen r, r ∈ dedupById seen ps →
      List.find? (fun p => decide (p.id = r.id)) ps = some r := by
  induction ps with
  | nil =>
    intro seen r h
    rw [show dedupById seen [] = [] from rfl] at h
    simp at h
  | cons p ps ih =>
    intro seen r h
    simp only [dedupById] at h
    by_cases hmem : p.id ∈ seen
    · rw [if_pos hmem] at h
      have hrs : r.id ∉ seen := (dedupById_sub ps seen r h).2
      have hne : p.id ≠ r.id := by
        intro hc; rw [hc] at hmem; exact hrs hmem
      rw [List.find?_cons_of_neg _ (by simp [hne])]
      exact ih seen r h
    · rw [if_neg hmem] at h
      rcases List.mem_cons.mp h with rfl | h'
      · rw [List.find?_cons_of_pos _ (by simp)]
      · have hrs : r.id ∉ p.id :: seen := (dedupById_sub ps (p.id :: seen) r h').2
        have hne : p.id ≠ r.id := by
          intro hc
          exact hrs (by rw [← hc]; exact List.mem_cons_self p.id seen)
        rw [List.find?_cons_of_neg _ (by simp [hne])]
        exact ih (p.id :: seen) r h'

theorem dedupById_covers (ps : List Record) :
    ∀ seen q, q ∈ ps → q.id ∈ seen ∨ ∃ r, r ∈ dedupById seen ps ∧ r.id = q.id := by
  induction ps with
  | nil => intro seen q h; simp at h
  | cons p ps ih =>
    intro seen q h
    simp only [dedupById]
    by_cases hmem : p.id ∈ seen
    · rw [if_pos hmem]
      rcases List.mem_cons.mp h with rfl | h'
      · exact Or.inl hmem
      · exact ih seen q h'
    · rw [if_neg hmem]
      rcases List.mem_cons.mp h with rfl | h'
      · exact Or.inr ⟨q, List.mem_cons_self q _, rfl⟩
      · rcases ih (p.id :: seen) q h' with hin | ⟨r, hr, hid⟩
        · rcases List.mem_cons.mp hin with he | hin'
          · exact Or.inr ⟨p, List.mem_cons_self p _, he.symm⟩
          · exact Or.inl hin'
        · exact Or.inr ⟨r, List.mem_cons_of_mem p hr, hid⟩

/-- C6: the merged, deduplicated output never contains two records with
the same `id`; every retained record is the first record carrying its
`id` in the concatenation of the input lists in iteration order
(first-seen wins across categories); and every input `id` is
represented. -/
theorem claim_C6_theorem : ∀ lists : List (List Record),
    ((merge lists).map Record.id).Nodup ∧
    (∀ r, r ∈ merge lists →
      List.find? (fun p => decide (p.id = r.id)) lists.flatten = some r) ∧
    (∀ q, q ∈ lists.flatten → ∃ r, r ∈ merge lists ∧ r.id = q.id) := by
  intro lists
  refine ⟨dedupById_nodup lists.flatten [], ?_, ?_⟩
  · intro r hr
    exact dedupById_find lists.flatten [] r hr
  · intro q hq
    rcases dedupById_covers lists.flatten [] q hq with hin | h
    · simp at hin
    · exact h

/-- Sample records for the aggregation witness: `recA` and `recA2` share
an `id`, `recB` has a fresh one. -/
def recA : Record :=
  { id := "https://www.zalando.it/p/a".data
    title := "First".data
    brand := []
    price_sale := 20
    price_original := some 40
    discount_percent := 50
    image_url := none
    product_url := "https://www.zalando.it/p/a".data
    source_category := "cat1".data }

def recA2 : Record := { recA with title := "Second".data, source_category := "cat2".data }

def recB : Record :=
  { recA with id := "https://www.zalando.it/p/b".data
              product_url := "https://www.zalando.it/p/b".data
              source_category := "cat2".data }

/-- C6 witness: the dedup contract applied to two category lists sharing
one `id`; the merged output is `[recA, recB]`, keeping the first list's
record for the shared `id`. -/
theorem claim_C6_witness :
    merge [[recA], [recA2, recB]] = [recA, recB] ∧
    ((merge [[recA], [recA2, recB]]).map Record.id).Nodup ∧
    (∀ r, r ∈ merge [[recA], [recA2, recB]] →
      List.find? (fun p => decide (p.id = r.id))
        ([[recA], [recA2, recB]] : List (List Record)).flatten = some r) ∧
    (∀ q, q ∈ ([[recA], [recA2, recB]] : List (List Record)).flatten →
      ∃ r, r ∈ merge [[recA], [recA2, recB]] ∧ r.id = q.id) :=
  ⟨rfl, (claim_C6_theorem [[recA], [recA2, recB]]).1,
    (claim_C6_theorem [[recA], [recA2, recB]]).2.1,
    (claim_C6_theorem [[recA], [recA2, recB]]).2.2⟩

/-! ## Claim C8 -/

theorem scrollGo_zero (counts : Nat → Nat) (t i last : Nat) :
    scrollGo counts t 0 i last = (i, ScrollStop.budget) := rfl

theorem scrollGo_target_exit (counts : Nat → Nat) (t fuel i last : Nat)
    (h1 : counts i ≥ t) :
    scrollGo counts t (fuel + 1) i last = (i, ScrollStop.target) := by
  unfold scrollGo
  rw [if_pos h1]

theorem scrollGo_stall_exit (counts : Nat → Nat) (t fuel i last : Nat)
    (h1 : ¬counts i ≥ t) (h2 : i > 2 ∧ counts i = last) :
    scrollGo counts t (fuel + 1) i last = (i, ScrollStop.stalled) := by
  unfold scrollGo
  rw [if_neg h1, if_pos h2]

theorem scrollGo_step (counts : Nat → Nat) (t fuel i last : Nat)
    (h1 : ¬counts i ≥ t) (h2 : ¬(i > 2 ∧ counts i = last)) :
    scrollGo counts t (fuel + 1) i last = scrollGo counts t fuel (i + 1) (counts i) := by
  conv_lhs => unfold scrollGo
  rw [if_neg h1, if_neg h2]

theorem scrollGo_spec (counts : Nat → Nat) (t : Nat) :
    ∀ (fuel i last : Nat),
      i ≤ (scrollGo counts t fuel i last).1 ∧
      (scrollGo counts t fuel i last).1 ≤ i + fuel ∧
      (∀ j, i ≤ j → j < (scrollGo counts t fuel i last).1 → counts j < t) ∧
      ((scrollGo counts t fuel i last).2 = ScrollStop.target →
        t ≤ counts (scrollGo counts t fuel i last).1) ∧
      ((scrollGo counts t fuel i last).2 = ScrollStop.stalled →
        2 < (scrollGo counts t fuel i last).1 ∧
        counts (scrollGo counts t fuel i last).1 < t ∧
        (((scrollGo counts t fuel i last).1 = i ∧
            counts (scrollGo counts t fuel i last).1 = last) ∨
          (i < (scrollGo counts t fuel i last).1 ∧
            counts (scrollGo counts t fuel i last).1 =
              counts ((scrollGo counts t fuel i last).1 - 1)))) ∧
      ((scrollGo counts t fuel i last).2 = ScrollStop.budget →
        (scrollGo counts t fuel i last).1 = i + fuel) := by
  intro fuel
  induction fuel with
  | zero =>
    intro i last
    rw [scrollGo_zero]
    refine ⟨le_refl i, by omega, ?_, ?_, ?_, ?_⟩
    · intro j h1 h2
      dsimp only at h2
      omega
    · intro h; simp at h
    · intro h; simp at h
    · intro _; dsimp only; omega
  | succ fuel ih =>
    intro i last
    by_cases h1 : counts i ≥ t
    · rw [scrollGo_target_exit counts t fuel i last h1]
      refine ⟨le_refl i, by omega, ?_, ?_, ?_, ?_⟩
      · intro j hj1 hj2; dsimp only at hj2; omega
      · intro _; exact h1
      · intro h; simp at h
      · intro h; simp at h
    · by_cases h2 : i > 2 ∧ counts i = last
      · rw [scrollGo_stall_exit counts t fuel i last h1 h2]
        refine ⟨le_refl i, by omega, ?_, ?_, ?_, ?_⟩
        · intro j hj1 hj2; dsimp only at hj2; omega
        · intro h; simp at h
        · intro _
          refine ⟨h2.1, ?_, Or.inl ⟨rfl, h2.2⟩⟩
          show counts i < t
          omega
        · intro h; simp at h
      · rw [scrollGo_step counts t fuel i last h1 h2]
        obtain ⟨g1, g2, g3, g4, g5, g6⟩ := ih (i + 1) (counts i)
        refine ⟨by omega, by omega, ?_, g4, ?_, by intro h; rw [g6 h]; omega⟩
        · intro j hj1 hj2
          by_cases hji : j = i
          · rw [hji]; omega
          · exact g3 j (by omega) hj2
        · intro h
          obtain ⟨k1, k2, k3⟩ := g5 h
          refine ⟨k1, k2, Or.inr ?_⟩
          rcases k3 with ⟨e1, e2⟩ | ⟨e1, e2⟩
          · refine ⟨by omega, ?_⟩
            rw [e1] at e2 ⊢
            simpa using e2
          · exact ⟨by omega, e2⟩

/-- C8: the loading loop runs at most `maxSteps` iterations; a `target`
stop happens at the first measurement reaching `targetCount`; a
no-growth stop can only happen from loop index 3 on (comparing the 4th
measurement with the 3rd, i.e. growth since the 3rd measurement is what
is monitored first) and only below the target; and a page whose count
never changes while staying below the target stops at index 3 —
strictly before a `maxSteps ≥ 4` budget is exhausted — as it does under
the configured `SCROLL_STEPS = 10`. -/
theorem claim_C8_theorem :
    ∀ (counts : Nat → Nat) (target maxSteps : Nat),
      (scrollRun counts target maxSteps).1 ≤ maxSteps ∧
      ((scrollRun counts target maxSteps).2 = ScrollStop.target →
        target ≤ counts (scrollRun counts target maxSteps).1 ∧
        ∀ j < (scrollRun counts target maxSteps).1, counts j < target) ∧
      ((scrollRun counts target maxSteps).2 = ScrollStop.stalled →
        3 ≤ (scrollRun counts target maxSteps).1 ∧
        counts (scrollRun counts target maxSteps).1 =
          counts ((scrollRun counts target maxSteps).1 - 1) ∧
        counts (scrollRun counts target maxSteps).1 < target) ∧
      ((∀ i, counts i = counts 0) → counts 0 < target → 4 ≤ maxSteps →
        scrollRun counts target maxSteps = (3, ScrollStop.stalled) ∧
        scrollToLoad counts target = (3, ScrollStop.stalled)) := by
  intro counts target maxSteps
  rw [show scrollRun counts target maxSteps = scrollGo counts target maxSteps 0 0 from rfl]
  obtain ⟨g1, g2, g3, g4, g5, g6⟩ := scrollGo_spec counts target maxSteps 0 0
  refine ⟨by omega, ?_, ?_, ?_⟩
  · intro h
    exact ⟨g4 h, fun j hj => g3 j (Nat.zero_le j) hj⟩
  · intro h
    obtain ⟨k1, k2, k3⟩ := g5 h
    refine ⟨by omega, ?_, k2⟩
    rcases k3 with ⟨e1, _⟩ | ⟨_, e2⟩
    · omega
    · exact e2
  · intro hconst hlt hms
    have run : ∀ ms, 4 ≤ ms → scrollGo counts target ms 0 0 = (3, ScrollStop.stalled) := by
      intro ms hms4
      obtain ⟨k, rfl⟩ : ∃ k, ms = k + 4 := ⟨ms - 4, by omega⟩
      have h0 : ¬counts 0 ≥ target := by omega
      have h1' : ¬counts 1 ≥ target := by rw [hconst 1]; omega
      have h2' : ¬counts 2 ≥ target := by rw [hconst 2]; omega
      have h3' : ¬counts 3 ≥ target := by rw [hconst 3]; omega
      rw [show k + 4 = (k + 3) + 1 from rfl,
          scrollGo_step counts target (k + 3) 0 0 h0 (by omega),
          show k + 3 = (k + 2) + 1 from rfl,
          scrollGo_step counts target (k + 2) 1 (counts 0) h1' (by omega),
          show k + 2 = (k + 1) + 1 from rfl,
          scrollGo_step counts target (k + 1) 2 (counts 1) h2' (by omega)]
      exact scrollGo_stall_exit counts target k 3 (counts 2) h3'
        ⟨by omega, by rw [hconst 3, hconst 2]⟩
    exact ⟨run maxSteps hms, run SCROLL_STEPS (by norm_num [SCROLL_STEPS])⟩

/-- C8 witness: a page stalling at 20 items with `targetCount = 50`
stops at loop index 3 under the configured ten-step budget. -/
theorem claim_C8_witness :
    scrollToLoad (fun _ => 20) 50 = (3, ScrollStop.stalled) ∧
    (scrollRun (fun _ => 20) 50 10).1 ≤ 10 :=
  ⟨((claim_C8_theorem (fun _ => 20) 50 10).2.2.2 (fun _ => rfl) (by norm_num) (by norm_num)).2,
   (claim_C8_theorem (fun _ => 20) 50 10).1⟩

/-! ## Claim C9 -/

/-- C9: when all three navigation attempts for a category fail,
`gotoWithRetry` rethrows the last attempt's error, `scrapeCategory`
converts it into an empty result list for that category, and the
per-category outputs of the remaining categories are unaffected — the
error never crosses a category boundary. -/
theorem claim_C9_theorem :
    ∀ (E : Type) (env : CategoryEnv E) (url : List Char) (maxCards : Nat) (e : Nat → E),
      (∀ i, 1 ≤ i → i ≤ 3 → env.nav i = Except.error (e i)) →
      gotoWithRetry env.nav 3 = Except.error (some (e 3)) ∧
      scrapeCategory env url maxCards = [] ∧
      (∀ pre post : List (CategoryEnv E × List Char),
        categoryOutputs (pre ++ (env, url) :: post) maxCards =
          categoryOutputs pre maxCards ++ [] :: categoryOutputs post maxCards) := by
  intro E env url maxCards e hfail
  have h1 := hfail 1 (by norm_num) (by norm_num)
  have h2 := hfail 2 (by norm_num) (by norm_num)
  have h3 := hfail 3 (by norm_num) (by norm_num)
  have hgoto : gotoWithRetry env.nav 3 = Except.error (some (e 3)) := by
    unfold gotoWithRetry
    rw [gotoAux, dif_pos (by norm_num : (1 : Nat) ≤ 3), h1]
    show gotoAux env.nav 3 2 (some (e 1)) = _
    rw [gotoAux, dif_pos (by norm_num : (2 : Nat) ≤ 3), h2]
    show gotoAux env.nav 3 3 (some (e 2)) = _
    rw [gotoAux, dif_pos (by norm_num : (3 : Nat) ≤ 3), h3]
    show gotoAux env.nav 3 4 (some (e 3)) = _
    rw [gotoAux, dif_neg (by norm_num : ¬(4 : Nat) ≤ 3)]
  have hcat : scrapeCategory env url maxCards = [] := by
    unfold scrapeCategory
    rw [hgoto]
  refine ⟨hgoto, hcat, ?_⟩
  intro pre post
  unfold categoryOutputs
  rw [List.map_append, List.map_cons]
  simp only [hcat]

/-- C9 witness: a category whose three attempts fail with errors
`1, 2, 3` yields the last error, an empty category, and untouched
neighbour categories. -/
theorem claim_C9_witness :
    gotoWithRetry (fun i => (Except.error i : Except Nat Unit)) 3 = Except.error (some 3) ∧
    scrapeCategory
      { nav := fun i => Except.error i, landedUrl := sampleBase,
        productsFound := true, cards := [sampleCard] } sampleBase 80 = [] :=
  ⟨(claim_C9_theorem Nat
      { nav := fun i => Except.error i, landedUrl := sampleBase,
        productsFound := true, cards := [sampleCard] }
      sampleBase 80 (fun i => i) (fun _ _ _ => rfl)).1,
   (claim_C9_theorem Nat
      { nav := fun i => Except.error i, landedUrl := sampleBase,
        productsFound := true, cards := [sampleCard] }
      sampleBase 80 (fun i => i) (fun _ _ _ => rfl)).2.1⟩

/-! ## Claim C1 -/

set_option maxRecDepth 10000

unseal Rat.add Rat.mul Rat.sub Rat.inv Rat.ofScientific in
/-- C1 counterexample: the line `"€15,00 100 g"` matches the claim's
per-unit shape (a currency marker co-occurring with the weight unit
token `g`), yet the refined `extractPricesFromCard` keeps it — none of
the code's four filters requires a bare currency/unit co-occurrence
without a `/` or `per` — so its value `15.00` becomes the sale price.
(The earlier variant of the script has no unit-price filter at all.) -/
theorem claim_C1_counterexample :
    specUnitLine ("€15,00 100 g".data) = true ∧
    extractPricesFromCard ("€15,00 100 g".data) = (none, some 15) := by
  constructor
  · decide
  · decide

/-- C1 amended: every value in the candidate price list of a card text
comes from a trimmed `€`-line that survives the code's unit-price
filter, i.e. a line with no currency marker adjacent to a `/`, no
`/`-quantity-unit, no `per`-quantity-unit, and no quantity-unit
co-occurring with a `/`; a line like `"€0,29 / 100 g"` therefore never
contributes, but a line whose currency marker merely co-occurs with a
unit token (no `/`, no `per`) may. -/
theorem claim_C1_theorem :
    ∀ (text : List Char) (v : ℚ), v ∈ candidatePrices text →
      ∃ line, line ∈ euroLines text ∧ keepLine line = true ∧ v ∈ linePrices line := by
  intro text v hv
  unfold candidatePrices at hv
  obtain ⟨line, hline, hvline⟩ := List.mem_flatMap.mp hv
  obtain ⟨hmem, hkeep⟩ := List.mem_filter.mp hline
  exact ⟨line, hmem, hkeep, hvline⟩

unseal Rat.add Rat.mul Rat.sub Rat.inv Rat.ofScientific in
/-- C1 witness: in a card text holding a sale line and a unit-price
line, the surviving value `39.99` is traced to a kept line. -/
theorem claim_C1_witness :
    ∃ line, line ∈ euroLines ("€39,99\n€0,29 / 100 g".data) ∧ keepLine line = true ∧
      (3999 / 100 : ℚ) ∈ linePrices line :=
  claim_C1_theorem ("€39,99\n€0,29 / 100 g".data) (3999 / 100) (by decide)

/-! ## Claim C7 -/

theorem firstNonempty_spec : ∀ l : List (List Char),
    (firstNonempty l = [] ∧ ∀ s ∈ l, s = []) ∨
    (∃ l1 s l2, l = l1 ++ s :: l2 ∧ (∀ u ∈ l1, u = []) ∧ s ≠ [] ∧ firstNonempty l = s) := by
  intro l
  induction l with
  | nil => exact Or.inl ⟨rfl, by simp⟩
  | cons s rest ih =>
    by_cases hs : s.isEmpty
    · have hsnil : s = [] := List.isEmpty_iff.mp hs
      have hfst : firstNonempty (s :: rest) = firstNonempty rest := by
        simp [firstNonempty, hs]
      rcases ih with ⟨h1, h2⟩ | ⟨l1, t, l2, he, hall, ht, hf⟩
      · refine Or.inl ⟨by rw [hfst]; exact h1, ?_⟩
        intro u hu
        rcases List.mem_cons.mp hu with rfl | hu'
        · exact hsnil
        · exact h2 u hu'
      · refine Or.inr ⟨s :: l1, t, l2, by rw [he]; rfl, ?_, ht, by rw [hfst]; exact hf⟩
        intro u hu
        rcases List.mem_cons.mp hu with rfl | hu'
        · exact hsnil
        · exact hall u hu'
    · have hsne : s ≠ [] := by
        intro hc; rw [hc] at hs; exact hs rfl
      refine Or.inr ⟨[], s, rest, rfl, by simp, hsne, ?_⟩
      simp [firstNonempty, hs]

/-- C7 counterexample: a fragment with no dedicated title markup, no
heading spans, alt text `"Bar"` and heading text `"Foo"`.  Under the
claim's order (markup → heading text → alt) the title would be `"Foo"`,
but the code resolves `"Bar"`: the raw heading-text strategy sits
after the image-alt strategy, not before it. -/
theorem claim_C7_counterexample :
    resolveTitle altVsHeadingCard = "Bar".data ∧
    specTitle altVsHeadingCard = "Foo".data ∧
    resolveTitle altVsHeadingCard ≠ specTitle altVsHeadingCard := by
  refine ⟨by decide, by decide, by decide⟩

/-- C7 amended: title resolution tries, in order, dedicated title
markup, the second span of a header/h3 heading, the second span of a
bare h3, the image alt text, and finally the raw h3 text; it returns
the first non-empty normalised result and the empty string when all
five strategies fail. -/
theorem claim_C7_theorem : ∀ c : Card,
    (resolveTitle c = [] ∧ ∀ s ∈ titleStrategies c, s = []) ∨
    (∃ l1 s l2, titleStrategies c = l1 ++ s :: l2 ∧ (∀ u ∈ l1, u = []) ∧ s ≠ [] ∧
      resolveTitle c = s) :=
  fun c => firstNonempty_spec (titleStrategies c)

/-- C7 witness: the first-non-empty rule applied to the counterexample
card. -/
theorem claim_C7_witness :
    (resolveTitle altVsHeadingCard = [] ∧ ∀ s ∈ titleStrategies altVsHeadingCard, s = []) ∨
    (∃ l1 s l2, titleStrategies altVsHeadingCard = l1 ++ s :: l2 ∧ (∀ u ∈ l1, u = []) ∧
      s ≠ [] ∧ resolveTitle altVsHeadingCard = s) :=
  claim_C7_theorem altVsHeadingCard

/-! ## Claims C4 and C10 -/

theorem isPrefixOf_append (p t : List Char) : List.isPrefixOf p (p ++ t) = true := by
  induction p with
  | nil => simp [List.isPrefixOf]
  | cons c cs ih => simp [List.isPrefixOf, ih]

theorem exists_of_isPrefixOf :
    ∀ (p s : List Char), List.isPrefixOf p s = true → ∃ t, s = p ++ t := by
  intro p
  induction p with
  | nil => intro s _; exact ⟨s, rfl⟩
  | cons c cs ih =>
    intro s h
    cases s with
    | nil => simp [List.isPrefixOf] at h
    | cons b bs =>
      simp only [List.isPrefixOf, Bool.and_eq_true, beq_iff_eq] at h
      obtain ⟨rfl, h2⟩ := h
      obtain ⟨t, rfl⟩ := ih bs h2
      exact ⟨t, rfl⟩

theorem isAbsoluteHttp_append (x y : List Char) (hx : isAbsoluteHttp x = true) :
    isAbsoluteHttp (x ++ y) = true := by
  unfold isAbsoluteHttp at hx ⊢
  rcases Bool.or_eq_true_iff.mp hx with h | h
  · obtain ⟨t, rfl⟩ := exists_of_isPrefixOf _ _ h
    rw [List.append_assoc, isPrefixOf_append]
    simp
  · obtain ⟨t, rfl⟩ := exists_of_isPrefixOf _ _ h
    rw [List.append_assoc]
    rw [isPrefixOf_append]
    simp

theorem isAbsoluteHttp_ne_nil (s : List Char) (h : isAbsoluteHttp s = true) : s ≠ [] := by
  unfold isAbsoluteHttp at h
  rcases Bool.or_eq_true_iff.mp h with h' | h' <;>
    · obtain ⟨t, rfl⟩ := exists_of_isPrefixOf _ _ h'
      simp

theorem urlOrigin_abs (base : List Char) (hb : isAbsoluteHttp base = true) :
    isAbsoluteHttp (urlOrigin base) = true := by
  unfold urlOrigin
  by_cases h1 : List.isPrefixOf ("https://".data) base = true
  · rw [if_pos h1]
    exact isAbsoluteHttp_append _ _ (by decide)
  · rw [if_neg h1]
    by_cases h2 : List.isPrefixOf ("http://".data) base = true
    · rw [if_pos h2]
      exact isAbsoluteHttp_append _ _ (by decide)
    · rw [if_neg h2]
      exact hb

theorem upToLastSlash_keeps (P t : List Char)
    (hP : P.reverse.dropWhile (fun c => decide (c ≠ '/')) = P.reverse) :
    ∃ u, upToLastSlash (P ++ t) = P ++ u := by
  unfold upToLastSlash
  rw [List.reverse_append, List.dropWhile_append]
  by_cases he : (t.reverse.dropWhile (fun c => decide (c ≠ '/'))).isEmpty
  · rw [if_pos he, hP, List.reverse_reverse]
    exact ⟨[], by rw [List.append_nil]⟩
  · rw [if_neg he, List.reverse_append, List.reverse_reverse]
    exact ⟨_, rfl⟩

theorem upToLastSlash_abs (base : List Char) (hb : isAbsoluteHttp base = true) :
    isAbsoluteHttp (upToLastSlash base) = true := by
  unfold isAbsoluteHttp at hb
  rcases Bool.or_eq_true_iff.mp hb with h | h
  · obtain ⟨t, rfl⟩ := exists_of_isPrefixOf _ _ h
    obtain ⟨u, hu⟩ := upToLastSlash_keeps ("http://".data) t (by decide)
    rw [hu]
    exact isAbsoluteHttp_append _ _ (by decide)
  · obtain ⟨t, rfl⟩ := exists_of_isPrefixOf _ _ h
    obtain ⟨u, hu⟩ := upToLastSlash_keeps ("https://".data) t (by decide)
    rw [hu]
    exact isAbsoluteHttp_append _ _ (by decide)

theorem resolveURL_abs (h base : List Char) (hb : isAbsoluteHttp base = true) :
    isAbsoluteHttp (resolveURL h base) = true := by
  unfold resolveURL
  by_cases h1 : isAbsoluteHttp h = true
  · rw [if_pos h1]; exact h1
  · rw [if_neg h1]
    by_cases h2 : List.isPrefixOf ['/'] h = true
    · rw [if_pos h2]
      exact isAbsoluteHttp_append _ _ (urlOrigin_abs base hb)
    · rw [if_neg h2]
      exact isAbsoluteHttp_append _ _ (upToLastSlash_abs base hb)

/-- C4: whenever the record extractor returns a record (rather than
`none`), that record has a non-empty title, a non-empty absolute
`product_url` (given an absolute category base URL, as configured), a
present sale price at least `MIN_SALE_PRICE`, and a discount percentage
at least the configured `MIN_DISCOUNT_PERCENT`; a fragment violating any
of these conditions yields `none`, never a partial record. -/
theorem claim_C4_theorem :
    ∀ (c : Card) (baseUrl : List Char) (r : Record),
      isAbsoluteHttp baseUrl = true → extractCardData c baseUrl = some r →
      r.title ≠ [] ∧ r.product_url ≠ [] ∧ isAbsoluteHttp r.product_url = true ∧
      MIN_SALE_PRICE ≤ r.price_sale ∧ MIN_DISCOUNT_PERCENT ≤ r.discount_percent := by
  intro c baseUrl r hbase h
  unfold extractCardData at h
  rcases hhref : c.href with _ | hurl <;> rw [hhref] at h
  · simp at h
  · rcases hpi : extractPricesFromCard c.text with ⟨po, pso⟩
    rw [hpi] at h
    dsimp only at h
    by_cases ht : (resolveTitle c).isEmpty = true
    · rw [if_pos ht] at h; simp at h
    rw [if_neg ht] at h
    by_cases hpu : (resolveURL hurl baseUrl).isEmpty = true
    · rw [if_pos hpu] at h; simp at h
    rw [if_neg hpu] at h
    rcases pso with _ | ps
    · simp at h
    dsimp only at h
    by_cases hz : ps = 0
    · rw [if_pos hz] at h; simp at h
    rw [if_neg hz] at h
    by_cases hms : ps < MIN_SALE_PRICE
    · rw [if_pos hms] at h; simp at h
    rw [if_neg hms] at h
    rcases po with _ | pov
    · dsimp only at h
      rw [if_pos (show (0 : ℤ) < MIN_DISCOUNT_PERCENT by norm_num [MIN_DISCOUNT_PERCENT])] at h
      simp at h
    · dsimp only at h
      by_cases hcond : pov ≠ 0 ∧ ps ≠ 0 ∧ ps < pov
      · rw [if_pos hcond] at h
        by_cases hmd : computeDiscount (some pov) (some ps) < MIN_DISCOUNT_PERCENT
        · rw [if_pos hmd] at h; simp at h
        · rw [if_neg hmd] at h
          injection h with h
          subst h
          refine ⟨?_, ?_, ?_, ?_, ?_⟩
          · intro hc
            dsimp only at hc
            exact ht (by rw [hc]; rfl)
          · exact isAbsoluteHttp_ne_nil _ (resolveURL_abs hurl baseUrl hbase)
          · exact resolveURL_abs hurl baseUrl hbase
          · exact not_lt.mp hms
          · exact not_lt.mp hmd
      · rw [if_neg hcond] at h
        rw [if_pos (show (0 : ℤ) < MIN_DISCOUNT_PERCENT by norm_num [MIN_DISCOUNT_PERCENT])] at h
        simp at h


unseal Rat.add Rat.mul Rat.sub Rat.inv Rat.ofScientific in
/-- C4 witness: the record extracted from a well-formed discounted
fragment satisfies every invariant. -/
theorem claim_C4_witness :
    sampleRecord.title ≠ [] ∧ sampleRecord.product_url ≠ [] ∧
    isAbsoluteHttp sampleRecord.product_url = true ∧
    MIN_SALE_PRICE ≤ sampleRecord.price_sale ∧
    MIN_DISCOUNT_PERCENT ≤ sampleRecord.discount_percent :=
  have h : extractCardData sampleCard sampleBase = some sampleRecord := by decide
  claim_C4_theorem sampleCard sampleBase sampleRecord (by decide) h

/-- C10: with the configured discount floor `MIN_DISCOUNT_PERCENT = 35`,
every record returned by `extractCardData` carries a non-null
`price_original` strictly greater than `price_sale`; and a fragment
whose text exposes exactly one distinct price value always yields
`none`, since its discount stays `0` and fails the floor. -/
theorem claim_C10_theorem :
    ∀ (c : Card) (b : List Char),
      (∀ r, extractCardData c b = some r →
        ∃ po, r.price_original = some po ∧ r.price_sale < po) ∧
      ((jsSetDedup (candidatePrices c.text)).length = 1 → extractCardData c b = none) := by
  intro c b
  constructor
  · intro r h
    unfold extractCardData at h
    rcases hhref : c.href with _ | hurl <;> rw [hhref] at h
    · simp at h
    · rcases hpi : extractPricesFromCard c.text with ⟨po, pso⟩
      rw [hpi] at h
      dsimp only at h
      by_cases ht : (resolveTitle c).isEmpty = true
      · rw [if_pos ht] at h; simp at h
      rw [if_neg ht] at h
      by_cases hpu : (resolveURL hurl b).isEmpty = true
      · rw [if_pos hpu] at h; simp at h
      rw [if_neg hpu] at h
      rcases pso with _ | ps
      · simp at h
      dsimp only at h
      by_cases hz : ps = 0
      · rw [if_pos hz] at h; simp at h
      rw [if_neg hz] at h
      by_cases hms : ps < MIN_SALE_PRICE
      · rw [if_pos hms] at h; simp at h
      rw [if_neg hms] at h
      rcases po with _ | pov
      · dsimp only at h
        rw [if_pos (show (0 : ℤ) < MIN_DISCOUNT_PERCENT by norm_num [MIN_DISCOUNT_PERCENT])] at h
        simp at h
      · dsimp only at h
        by_cases hcond : pov ≠ 0 ∧ ps ≠ 0 ∧ ps < pov
        · rw [if_pos hcond] at h
          by_cases hmd : computeDiscount (some pov) (some ps) < MIN_DISCOUNT_PERCENT
          · rw [if_pos hmd] at h; simp at h
          · rw [if_neg hmd] at h
            injection h with h
            subst h
            exact ⟨pov, rfl, hcond.2.2⟩
        · rw [if_neg hcond] at h
          rw [if_pos (show (0 : ℤ) < MIN_DISCOUNT_PERCENT by norm_num [MIN_DISCOUNT_PERCENT])] at h
          simp at h
  · intro hlen
    obtain ⟨x, hx⟩ := List.length_eq_one.mp hlen
    have hpi : extractPricesFromCard c.text = (none, some x) := by
      unfold extractPricesFromCard
      by_cases hempty : c.text.isEmpty
      · exfalso
        have hnil : c.text = [] := List.isEmpty_iff.mp hempty
        rw [hnil] at hlen
        rw [show candidatePrices [] = [] from rfl] at hlen
        simp [jsSetDedup, jsSetDedupGo] at hlen
      · rw [if_neg hempty]
        unfold disambiguate
        rw [hx]
        rfl
    unfold extractCardData
    rw [hpi]
    rcases c.href with _ | hurl
    · rfl
    · dsimp only
      by_cases hA : (resolveTitle c).isEmpty = true
      · rw [if_pos hA]
      · rw [if_neg hA]
        by_cases hB : (resolveURL hurl b).isEmpty = true
        · rw [if_pos hB]
        · rw [if_neg hB]
          by_cases hz : x = 0
          · rw [if_pos hz]
          · rw [if_neg hz]
            by_cases hms : x < MIN_SALE_PRICE
            · rw [if_pos hms]
            · rw [if_neg hms]
              rw [if_pos (show (0 : ℤ) < MIN_DISCOUNT_PERCENT by
                norm_num [MIN_DISCOUNT_PERCENT])]

unseal Rat.add Rat.mul Rat.sub Rat.inv Rat.ofScientific in
/-- C10 witness: the sample record's original price exceeds its sale
price, and a single-price fragment is rejected. -/
theorem claim_C10_witness :
    (∃ po, sampleRecord.price_original = some po ∧ sampleRecord.price_sale < po) ∧
    extractCardData singlePriceCard sampleBase = none :=
  ⟨(claim_C10_theorem sampleCard sampleBase).1 sampleRecord (by decide),
   (claim_C10_theorem singlePriceCard sampleBase).2 (by decide)⟩

/-! ## Claim C3 -/

theorem digitChar_isDigit (k : Nat) (h : k < 10) : isDigitCh (digitChar k) = true := by
  interval_cases k <;> decide

theorem digitVal_digitChar (k : Nat) (h : k < 10) : digitVal (digitChar k) = k := by
  interval_cases k <;> decide

theorem isDigitCh_ne_dot (c : Char) (h : isDigitCh c = true) : c ≠ '.' := by
  intro hc; subst hc; simp [isDigitCh] at h

theorem isDigitCh_ne_comma (c : Char) (h : isDigitCh c = true) : c ≠ ',' := by
  intro hc; subst hc; simp [isDigitCh] at h

theorem isSepCh_not_digit (c : Char) (h : isSepCh c = true) : isDigitCh c = false := by
  rcases Bool.or_eq_true_iff.mp h with h' | h' <;>
    · rw [beq_iff_eq] at h'
      subst h'
      decide

theorem natDigitsRev_ne_nil (n : Nat) : natDigitsRev n ≠ [] := by
  rw [natDigitsRev]
  by_cases h : n < 10
  · rw [if_pos h]; simp
  · rw [if_neg h]; simp

theorem natDigitsRev_all (n : Nat) : (natDigitsRev n).all isDigitCh = true := by
  induction n using Nat.strong_induction_on with
  | _ n ih =>
    rw [natDigitsRev]
    by_cases h : n < 10
    · rw [if_pos h]
      simp [List.all_eq_true]
      exact digitChar_isDigit n h
    · rw [if_neg h]
      simp only [List.all_cons, Bool.and_eq_true]
      constructor
      · exact digitChar_isDigit (n % 10) (Nat.mod_lt n (by norm_num))
      · exact ih (n / 10) (Nat.div_lt_self (by omega) (by norm_num))

theorem digitsValN_append_one (xs : List Char) (c : Char) :
    digitsValN (xs ++ [c]) = 10 * digitsValN xs + digitVal c := by
  unfold digitsValN
  rw [List.foldl_append]
  rfl

theorem digitsValN_natDigitsRev (n : Nat) :
    digitsValN (natDigitsRev n).reverse = n := by
  induction n using Nat.strong_induction_on with
  | _ n ih =>
    rw [natDigitsRev]
    by_cases h : n < 10
    · rw [if_pos h]
      simp [digitsValN, digitVal_digitChar n h]
    · rw [if_neg h]
      rw [List.reverse_cons, digitsValN_append_one]
      rw [ih (n / 10) (Nat.div_lt_self (by omega) (by norm_num))]
      rw [digitVal_digitChar (n % 10) (Nat.mod_lt n (by norm_num))]
      omega


theorem chunksFlat_append_one (sep : Char) (gs : List (List Char)) (ch : List Char) :
    chunksFlat sep (gs ++ [ch]) = chunksFlat sep gs ++ sep :: ch := by
  simp [chunksFlat]

theorem groupRev_shape :
    ∀ (n : Nat) (ds : List Char), ds.length ≤ n → ds ≠ [] → ds.all isDigitCh = true →
      ∀ sep : Char,
      ∃ g gs, (groupRev sep ds).reverse = g ++ chunksFlat sep gs ∧
        1 ≤ g.length ∧ g.length ≤ 3 ∧ g.all isDigitCh = true ∧
        (∀ ch ∈ gs, ch.length = 3 ∧ ch.all isDigitCh = true) ∧
        g ++ gs.flatten = ds.reverse := by
  intro n
  induction n with
  | zero =>
    intro ds hlen hne _ _
    interval_cases h : ds.length
    · exact absurd (List.length_eq_zero.mp h) hne
  | succ n ih =>
    intro ds hlen hne hdig sep
    match ds with
    | [d1] =>
      refine ⟨[d1], [], rfl, by simp, by simp, ?_, by simp, by simp [List.flatten]⟩
      simpa using hdig
    | [d1, d2] =>
      refine ⟨[d2, d1], [], rfl, by simp, by simp, ?_, by simp, by simp [List.flatten]⟩
      simp [List.all_eq_true] at hdig ⊢
      tauto
    | [d1, d2, d3] =>
      refine ⟨[d3, d2, d1], [], rfl, by simp, by simp, ?_, by simp, by simp [List.flatten]⟩
      simp [List.all_eq_true] at hdig ⊢
      tauto
    | d1 :: d2 :: d3 :: d4 :: rest =>
      have hgr : groupRev sep (d1 :: d2 :: d3 :: d4 :: rest) =
          d1 :: d2 :: d3 :: sep :: groupRev sep (d4 :: rest) := rfl
      have hdig' : (d4 :: rest).all isDigitCh = true := by
        simp [List.all_eq_true] at hdig ⊢
        tauto
      obtain ⟨g, gs, he, h1, h3, hg, hgs, hflat⟩ :=
        ih (d4 :: rest) (by simp at hlen ⊢; omega) (by simp) hdig' sep
      refine ⟨g, gs ++ [[d3, d2, d1]], ?_, h1, h3, hg, ?_, ?_⟩
      · rw [hgr]
        simp only [List.reverse_cons, List.append_assoc]
        rw [he, chunksFlat_append_one]
        simp [List.append_assoc]
      · intro ch hch
        rcases List.mem_append.mp hch with h | h
        · exact hgs ch h
        · simp at h
          subst h
          refine ⟨rfl, ?_⟩
          simp [List.all_eq_true] at hdig ⊢
          tauto
      · rw [List.flatten_append]
        simp only [List.flatten, List.append_nil]
        rw [← List.append_assoc, hflat]
        simp [List.reverse_cons, List.append_assoc]


theorem starTail_chunks :
    ∀ (gs : List (List Char)), (∀ ch ∈ gs, ch.length = 3 ∧ ch.all isDigitCh = true) →
      ∀ (sep dec f1 f2 : Char), isSepCh sep = true → isSepCh dec = true →
        isDigitCh f1 = true → isDigitCh f2 = true →
        starTail (chunksFlat sep gs ++ [dec, f1, f2]) =
          some (chunksFlat sep gs ++ [dec, f1, f2]) := by
  intro gs
  induction gs with
  | nil =>
    intro _ sep dec f1 f2 _ hdec hf1 hf2
    show starTail [dec, f1, f2] = some [dec, f1, f2]
    simp [starTail, hdec, hf1, hf2]
  | cons ch gs ih =>
    intro hall sep dec f1 f2 hsep hdec hf1 hf2
    obtain ⟨hl, hd⟩ := hall ch (List.mem_cons_self ch gs)
    obtain ⟨a, b, c, rfl⟩ := List.length_eq_three.mp hl
    simp only [List.all_cons, Bool.and_eq_true] at hd
    obtain ⟨ha, hb, hc, -⟩ := hd
    have hrest := ih (fun x hx => hall x (List.mem_cons_of_mem _ hx)) sep dec f1 f2
      hsep hdec hf1 hf2
    have hshape : chunksFlat sep ([a, b, c] :: gs) ++ [dec, f1, f2] =
        sep :: a :: b :: c :: (chunksFlat sep gs ++ [dec, f1, f2]) := by
      simp [chunksFlat]
    rw [hshape]
    simp [starTail, hsep, ha, hb, hc, hrest]

theorem matchHeadAt_wf :
    ∀ (g rest : List Char), 1 ≤ g.length → g.length ≤ 3 → g.all isDigitCh = true →
      (∃ r0 rtail, rest = r0 :: rtail ∧ isSepCh r0 = true) →
      starTail rest = some rest →
      matchHeadAt (g ++ rest) = some (g ++ rest) := by
  intro g rest h1 h3 hdig ⟨r0, rtail, hre, hr0⟩ hstar
  have hr0d : isDigitCh r0 = false := isSepCh_not_digit r0 hr0
  subst hre
  interval_cases hl : g.length
  · obtain ⟨a, rfl⟩ := List.length_eq_one.mp hl
    simp only [List.all_cons, Bool.and_eq_true] at hdig
    show matchHeadAt (a :: r0 :: rtail) = some (a :: r0 :: rtail)
    simp [matchHeadAt, tryGroup, hdig.1, hr0d, hstar]
  · obtain ⟨a, b, rfl⟩ := List.length_eq_two.mp hl
    simp only [List.all_cons, Bool.and_eq_true] at hdig
    show matchHeadAt (a :: b :: r0 :: rtail) = some (a :: b :: r0 :: rtail)
    simp [matchHeadAt, tryGroup, hdig.1, hdig.2.1, hr0d, hstar]
  · obtain ⟨a, b, c, rfl⟩ := List.length_eq_three.mp hl
    simp only [List.all_cons, Bool.and_eq_true] at hdig
    show matchHeadAt (a :: b :: c :: r0 :: rtail) = some (a :: b :: c :: r0 :: rtail)
    simp [matchHeadAt, tryGroup, hdig.1, hdig.2.1, hdig.2.2.1, hstar]


theorem findPrice_head (x : Char) (xs : List Char)
    (h : matchHeadAt (x :: xs) = some (x :: xs)) :
    findPrice (x :: xs) = some (x :: xs) := by
  simp [findPrice, h]

theorem lastIndexOf_neg (c : Char) :
    ∀ s : List Char, c ∉ s → lastIndexOf c s = -1 := by
  intro s
  induction s with
  | nil => intro _; rfl
  | cons x rest ih =>
    intro h
    have hx : x ≠ c := by
      intro hc; exact h (by rw [hc]; exact List.mem_cons_self c rest)
    have hr : c ∉ rest := fun hc => h (List.mem_cons_of_mem x hc)
    simp [lastIndexOf, ih hr, hx]

theorem lastIndexOf_nonneg (c : Char) :
    ∀ s : List Char, c ∈ s → 0 ≤ lastIndexOf c s := by
  intro s
  induction s with
  | nil => intro h; simp at h
  | cons x rest ih =>
    intro h
    simp only [lastIndexOf]
    by_cases hr : lastIndexOf c rest ≥ 0
    · rw [if_pos hr]; omega
    · rw [if_neg hr]
      rcases List.mem_cons.mp h with rfl | hm
      · simp
      · exact absurd (ih hm) hr

theorem lastIndexOf_lt_length (c : Char) :
    ∀ s : List Char, lastIndexOf c s < s.length := by
  intro s
  induction s with
  | nil => simp [lastIndexOf]
  | cons x rest ih =>
    simp only [lastIndexOf, List.length_cons]
    by_cases hr : lastIndexOf c rest ≥ 0
    · rw [if_pos hr]; push_cast; omega
    · rw [if_neg hr]
      by_cases hx : x = c
      · rw [if_pos hx]; push_cast; omega
      · rw [if_neg hx]; push_cast; omega
  
theorem lastIndexOf_append_mem (c : Char) (ys : List Char) (hc : c ∈ ys) :
    ∀ xs : List Char, lastIndexOf c (xs ++ ys) = xs.length + lastIndexOf c ys := by
  intro xs
  induction xs with
  | nil => simp [lastIndexOf]
  | cons x rest ih =>
    have hmem : c ∈ rest ++ ys := List.mem_append.mpr (Or.inr hc)
    have hnn := lastIndexOf_nonneg c (rest ++ ys) hmem
    simp only [List.cons_append, lastIndexOf, List.append_eq, ih]
    rw [if_pos (by rw [ih] at hnn; exact hnn)]
    simp only [List.length_cons]
    push_cast
    ring

theorem lastIndexOf_append_not_mem (c : Char) (ys : List Char) (hc : c ∉ ys) :
    ∀ xs : List Char, lastIndexOf c (xs ++ ys) = lastIndexOf c xs := by
  intro xs
  induction xs with
  | nil => simp [lastIndexOf_neg c ys hc, lastIndexOf]
  | cons x rest ih =>
    simp only [List.cons_append, lastIndexOf, List.append_eq, ih]


theorem removeAllCh_of_not_mem (c : Char) (s : List Char) (h : c ∉ s) :
    removeAllCh c s = s := by
  unfold removeAllCh
  apply List.filter_eq_self.mpr
  intro a ha
  simp only [decide_eq_true_eq]
  intro hc
  exact h (hc ▸ ha)

theorem removeAllCh_append (c : Char) (xs ys : List Char) :
    removeAllCh c (xs ++ ys) = removeAllCh c xs ++ removeAllCh c ys := by
  unfold removeAllCh
  exact List.filter_append _ _

theorem not_mem_of_all_digit (c : Char) (s : List Char) (hs : s.all isDigitCh = true)
    (hc : isDigitCh c = false) : c ∉ s := by
  intro hmem
  rw [List.all_eq_true] at hs
  have := hs c hmem
  rw [this] at hc
  cases hc

theorem removeAllCh_chunksFlat (c : Char) (gs : List (List Char))
    (h : ∀ ch ∈ gs, ch.all isDigitCh = true) (hcd : isDigitCh c = false) :
    removeAllCh c (chunksFlat c gs) = gs.flatten := by
  induction gs with
  | nil => rfl
  | cons ch gs ih =>
    have hch := h ch (List.mem_cons_self ch gs)
    have hshape : chunksFlat c (ch :: gs) = (c :: ch) ++ chunksFlat c gs := by
      simp [chunksFlat]
    rw [hshape, removeAllCh_append]
    have h1 : removeAllCh c (c :: ch) = ch := by
      unfold removeAllCh
      rw [List.filter_cons]
      rw [if_neg (by simp)]
      exact removeAllCh_of_not_mem c ch (not_mem_of_all_digit c ch hch hcd)
    rw [h1, ih (fun x hx => h x (List.mem_cons_of_mem ch hx))]
    simp

theorem replaceFirstCh_at (a b : Char) (ys : List Char) :
    ∀ xs : List Char, a ∉ xs → replaceFirstCh a b (xs ++ a :: ys) = xs ++ b :: ys := by
  intro xs
  induction xs with
  | nil => simp [replaceFirstCh]
  | cons x rest ih =>
    intro h
    have hx : x ≠ a := by
      intro hc; exact h (by rw [hc]; exact List.mem_cons_self a rest)
    simp only [List.cons_append, replaceFirstCh, if_neg hx, List.append_eq]
    rw [ih (fun hc => h (List.mem_cons_of_mem x hc))]

theorem splitAtDot_at (B : List Char) :
    ∀ D : List Char, '.' ∉ D → splitAtDot (D ++ '.' :: B) = some (D, B) := by
  intro D
  induction D with
  | nil => simp [splitAtDot]
  | cons d rest ih =>
    intro h
    have hd : d ≠ '.' := by
      intro hc; exact h (by rw [hc]; exact List.mem_cons_self '.' rest)
    simp only [List.cons_append, splitAtDot, if_neg hd, List.append_eq]
    rw [ih (fun hc => h (List.mem_cons_of_mem d hc))]

theorem jsNumber_digits_dot (D B : List Char) (hD : D ≠ []) (hDd : D.all isDigitCh = true)
    (hBd : B.all isDigitCh = true) :
    jsNumber (D ++ '.' :: B) =
      some ((digitsValN D : ℚ) + (digitsValN B : ℚ) / (10 : ℚ) ^ B.length) := by
  have hnd : '.' ∉ D := not_mem_of_all_digit '.' D hDd (by decide)
  have hDe : D.isEmpty = false := by
    cases D with
    | nil => exact absurd rfl hD
    | cons x xs => rfl
  unfold jsNumber
  rw [splitAtDot_at B D hnd]
  dsimp only
  rw [if_pos (by simp [hDe, hDd, hBd])]


theorem lastIndexOf_cons_self (c : Char) (ys : List Char) (h : c ∉ ys) :
    lastIndexOf c (c :: ys) = 0 := by
  simp only [lastIndexOf, lastIndexOf_neg c ys h]
  norm_num

theorem digitsValN_pair (a b : Char) :
    digitsValN [a, b] = 10 * digitVal a + digitVal b := by
  simp [digitsValN, List.foldl]

theorem parseMoney_formatEU (cents : Nat) :
    parseMoney (formatEU cents) = some ((cents : ℚ) / 100) := by
  have hf : cents % 100 < 100 := Nat.mod_lt cents (by norm_num)
  have hf1 : cents % 100 / 10 < 10 := by omega
  have hf2 : cents % 100 % 10 < 10 := by omega
  have hd1 : isDigitCh (digitChar (cents % 100 / 10)) = true := digitChar_isDigit _ hf1
  have hd2 : isDigitCh (digitChar (cents % 100 % 10)) = true := digitChar_isDigit _ hf2
  obtain ⟨g, gs, he, h1, h3, hgd, hgs, hflat⟩ :=
    groupRev_shape (natDigitsRev (cents / 100)).length (natDigitsRev (cents / 100)) le_rfl
      (natDigitsRev_ne_nil _) (natDigitsRev_all _) '.'
  have hfe : formatEU cents =
      g ++ (chunksFlat '.' gs ++
        [',', digitChar (cents % 100 / 10), digitChar (cents % 100 % 10)]) := by
    unfold formatEU twoDigits
    rw [he, List.append_assoc]
  have hstar := starTail_chunks gs hgs '.' ','
    (digitChar (cents % 100 / 10)) (digitChar (cents % 100 % 10))
    (by decide) (by decide) hd1 hd2
  have hhead : ∃ r0 rtail,
      chunksFlat '.' gs ++
        [',', digitChar (cents % 100 / 10), digitChar (cents % 100 % 10)] = r0 :: rtail ∧
      isSepCh r0 = true := by
    cases gs with
    | nil =>
      exact ⟨',', [digitChar (cents % 100 / 10), digitChar (cents % 100 % 10)], rfl, by decide⟩
    | cons ch gs' =>
      refine ⟨'.', ch ++ (chunksFlat '.' gs' ++
        [',', digitChar (cents % 100 / 10), digitChar (cents % 100 % 10)]), ?_, by decide⟩
      simp [chunksFlat]
  have hmatch := matchHeadAt_wf g _ h1 h3 hgd hhead hstar
  have hfp : findPrice (formatEU cents) = some (formatEU cents) := by
    rw [hfe]
    cases g with
    | nil => simp at h1
    | cons a g' =>
      rw [List.cons_append]
      exact findPrice_head a _ (by rw [← List.cons_append]; exact hmatch)
  -- digit-only content of the numeral
  have hXd : (g ++ gs.flatten).all isDigitCh = true := by
    rw [List.all_eq_true]
    intro x hx
    rcases List.mem_append.mp hx with hxg | hxf
    · exact (List.all_eq_true.mp hgd) x hxg
    · obtain ⟨l, hl, hxl⟩ := List.mem_flatten.mp hxf
      exact (List.all_eq_true.mp (hgs l hl).2) x hxl
  have hfrac_dot : '.' ∉ [',', digitChar (cents % 100 / 10), digitChar (cents % 100 % 10)] := by
    intro hm
    rcases List.mem_cons.mp hm with hc | hm
    · cases hc
    rcases List.mem_cons.mp hm with hc | hm
    · exact isDigitCh_ne_dot _ hd1 hc.symm
    rcases List.mem_cons.mp hm with hc | hm
    · exact isDigitCh_ne_dot _ hd2 hc.symm
    · simp at hm
  have hfrac_comma : ',' ∉ [digitChar (cents % 100 / 10), digitChar (cents % 100 % 10)] := by
    intro hm
    rcases List.mem_cons.mp hm with hc | hm
    · exact isDigitCh_ne_comma _ hd1 hc.symm
    rcases List.mem_cons.mp hm with hc | hm
    · exact isDigitCh_ne_comma _ hd2 hc.symm
    · simp at hm
  -- the separator-index comparison selects the EU branch
  have hassoc : formatEU cents =
      (g ++ chunksFlat '.' gs) ++
        [',', digitChar (cents % 100 / 10), digitChar (cents % 100 % 10)] := by
    rw [hfe, List.append_assoc]
  have hlc : lastIndexOf ',' (formatEU cents) = (g ++ chunksFlat '.' gs).length := by
    rw [hassoc, lastIndexOf_append_mem ',' _ (List.mem_cons_self ',' _)]
    rw [lastIndexOf_cons_self ',' _ hfrac_comma]
    omega
  have hld : lastIndexOf '.' (formatEU cents) < (g ++ chunksFlat '.' gs).length := by
    rw [hassoc, lastIndexOf_append_not_mem '.' _ hfrac_dot]
    exact lastIndexOf_lt_length '.' _
  -- run the parser
  unfold parseMoney
  rw [hfp]
  dsimp only
  rw [if_pos (by omega)]
  -- clean the numeral
  have hclean : replaceFirstCh ',' '.' (removeAllCh '.' (formatEU cents)) =
      (g ++ gs.flatten) ++
        '.' :: [digitChar (cents % 100 / 10), digitChar (cents % 100 % 10)] := by
    rw [hassoc, removeAllCh_append, removeAllCh_append]
    rw [removeAllCh_of_not_mem '.' g (not_mem_of_all_digit '.' g hgd (by decide))]
    rw [removeAllCh_chunksFlat '.' gs (fun ch hch => (hgs ch hch).2) (by decide)]
    rw [removeAllCh_of_not_mem '.' _ hfrac_dot]
    exact replaceFirstCh_at ',' '.' _ _
      (not_mem_of_all_digit ',' _ hXd (by decide))
  rw [hclean]
  have hYne : g ++ gs.flatten ≠ [] := by
    cases g with
    | nil => simp at h1
    | cons a g' => simp
  rw [jsNumber_digits_dot _ _ hYne hXd (by simp [hd1, hd2])]
  -- numeric value
  have hDval : digitsValN (g ++ gs.flatten) = cents / 100 := by
    rw [hflat, digitsValN_natDigitsRev]
  have hBval : digitsValN
      [digitChar (cents % 100 / 10), digitChar (cents % 100 % 10)] = cents % 100 := by
    rw [digitsValN_pair, digitVal_digitChar _ hf1, digitVal_digitChar _ hf2]
    omega
  rw [hDval, hBval]
  congr 1
  have hmod : 100 * (cents / 100) + cents % 100 = cents := Nat.div_add_mod cents 100
  have hcast : ((100 * (cents / 100) + cents % 100 : Nat) : ℚ) = (cents : ℚ) := by
    exact_mod_cast congrArg (fun n : Nat => (n : ℚ)) hmod
  push_cast at hcast
  rw [show (([digitChar (cents % 100 / 10), digitChar (cents % 100 % 10)] :
      List Char)).length = 2 from rfl]
  field_simp
  linarith


theorem parseMoney_formatUS (cents : Nat) :
    parseMoney (formatUS cents) = some ((cents : ℚ) / 100) := by
  have hf : cents % 100 < 100 := Nat.mod_lt cents (by norm_num)
  have hf1 : cents % 100 / 10 < 10 := by omega
  have hf2 : cents % 100 % 10 < 10 := by omega
  have hd1 : isDigitCh (digitChar (cents % 100 / 10)) = true := digitChar_isDigit _ hf1
  have hd2 : isDigitCh (digitChar (cents % 100 % 10)) = true := digitChar_isDigit _ hf2
  obtain ⟨g, gs, he, h1, h3, hgd, hgs, hflat⟩ :=
    groupRev_shape (natDigitsRev (cents / 100)).length (natDigitsRev (cents / 100)) le_rfl
      (natDigitsRev_ne_nil _) (natDigitsRev_all _) ','
  have hfe : formatUS cents =
      g ++ (chunksFlat ',' gs ++
        ['.', digitChar (cents % 100 / 10), digitChar (cents % 100 % 10)]) := by
    unfold formatUS twoDigits
    rw [he, List.append_assoc]
  have hstar := starTail_chunks gs hgs ',' '.'
    (digitChar (cents % 100 / 10)) (digitChar (cents % 100 % 10))
    (by decide) (by decide) hd1 hd2
  have hhead : ∃ r0 rtail,
      chunksFlat ',' gs ++
        ['.', digitChar (cents % 100 / 10), digitChar (cents % 100 % 10)] = r0 :: rtail ∧
      isSepCh r0 = true := by
    cases gs with
    | nil =>
      exact ⟨'.', [digitChar (cents % 100 / 10), digitChar (cents % 100 % 10)], rfl, by decide⟩
    | cons ch gs' =>
      refine ⟨',', ch ++ (chunksFlat ',' gs' ++
        ['.', digitChar (cents % 100 / 10), digitChar (cents % 100 % 10)]), ?_, by decide⟩
      simp [chunksFlat]
  have hmatch := matchHeadAt_wf g _ h1 h3 hgd hhead hstar
  have hfp : findPrice (formatUS cents) = some (formatUS cents) := by
    rw [hfe]
    cases g with
    | nil => simp at h1
    | cons a g' =>
      rw [List.cons_append]
      exact findPrice_head a _ (by rw [← List.cons_append]; exact hmatch)
  have hXd : (g ++ gs.flatten).all isDigitCh = true := by
    rw [List.all_eq_true]
    intro x hx
    rcases List.mem_append.mp hx with hxg | hxf
    · exact (List.all_eq_true.mp hgd) x hxg
    · obtain ⟨l, hl, hxl⟩ := List.mem_flatten.mp hxf
      exact (List.all_eq_true.mp (hgs l hl).2) x hxl
  have hfrac_comma : ',' ∉ ['.', digitChar (cents % 100 / 10), digitChar (cents % 100 % 10)] := by
    intro hm
    rcases List.mem_cons.mp hm with hc | hm
    · cases hc
    rcases List.mem_cons.mp hm with hc | hm
    · exact isDigitCh_ne_comma _ hd1 hc.symm
    rcases List.mem_cons.mp hm with hc | hm
    · exact isDigitCh_ne_comma _ hd2 hc.symm
    · simp at hm
  have hfrac_dot : '.' ∉ [digitChar (cents % 100 / 10), digitChar (cents % 100 % 10)] := by
    intro hm
    rcases List.mem_cons.mp hm with hc | hm
    · exact isDigitCh_ne_dot _ hd1 hc.symm
    rcases List.mem_cons.mp hm with hc | hm
    · exact isDigitCh_ne_dot _ hd2 hc.symm
    · simp at hm
  have hassoc : formatUS cents =
      (g ++ chunksFlat ',' gs) ++
        ['.', digitChar (cents % 100 / 10), digitChar (cents % 100 % 10)] := by
    rw [hfe, List.append_assoc]
  have hld : lastIndexOf '.' (formatUS cents) = (g ++ chunksFlat ',' gs).length := by
    rw [hassoc, lastIndexOf_append_mem '.' _ (List.mem_cons_self '.' _)]
    rw [lastIndexOf_cons_self '.' _ hfrac_dot]
    omega
  have hlc : lastIndexOf ',' (formatUS cents) < (g ++ chunksFlat ',' gs).length := by
    rw [hassoc, lastIndexOf_append_not_mem ',' _ hfrac_comma]
    exact lastIndexOf_lt_length ',' _
  unfold parseMoney
  rw [hfp]
  dsimp only
  rw [if_neg (by omega)]
  have hclean : removeAllCh ',' (formatUS cents) =
      (g ++ gs.flatten) ++
        '.' :: [digitChar (cents % 100 / 10), digitChar (cents % 100 % 10)] := by
    rw [hassoc, removeAllCh_append, removeAllCh_append]
    rw [removeAllCh_of_not_mem ',' g (not_mem_of_all_digit ',' g hgd (by decide))]
    rw [removeAllCh_chunksFlat ',' gs (fun ch hch => (hgs ch hch).2) (by decide)]
    rw [removeAllCh_of_not_mem ',' _ hfrac_comma]
  rw [hclean]
  have hYne : g ++ gs.flatten ≠ [] := by
    cases g with
    | nil => simp at h1
    | cons a g' => simp
  rw [jsNumber_digits_dot _ _ hYne hXd (by simp [hd1, hd2])]
  have hDval : digitsValN (g ++ gs.flatten) = cents / 100 := by
    rw [hflat, digitsValN_natDigitsRev]
  have hBval : digitsValN
      [digitChar (cents % 100 / 10), digitChar (cents % 100 % 10)] = cents % 100 := by
    rw [digitsValN_pair, digitVal_digitChar _ hf1, digitVal_digitChar _ hf2]
    omega
  rw [hDval, hBval]
  congr 1
  have hmod : 100 * (cents / 100) + cents % 100 = cents := Nat.div_add_mod cents 100
  have hcast : ((100 * (cents / 100) + cents % 100 : Nat) : ℚ) = (cents : ℚ) := by
    exact_mod_cast congrArg (fun n : Nat => (n : ℚ)) hmod
  push_cast at hcast
  rw [show (([digitChar (cents % 100 / 10), digitChar (cents % 100 % 10)] :
      List Char)).length = 2 from rfl]
  field_simp
  linarith


/-- C3: for every non-negative amount with two fractional digits
(represented by its value in cents), `parseMoney` recovers the exact
value from both the EU-style rendering (dot grouping in threes, comma
decimal) and the US-style rendering (comma grouping, dot decimal), the
decimal separator being whichever of `,` and `.` occurs last. -/
theorem claim_C3_theorem : ∀ cents : Nat,
    parseMoney (formatEU cents) = some ((cents : ℚ) / 100) ∧
    parseMoney (formatUS cents) = some ((cents : ℚ) / 100) :=
  fun cents => ⟨parseMoney_formatEU cents, parseMoney_formatUS cents⟩

end Scraper
